import Mathlib

/-!
# A verification development for `queue.c`

The queue of `queue.c` is a singly linked chain of heap nodes, each owning a C string.
The embedding keeps the pointers: a pointer is `Option Nat` (`none` is `NULL`), the heap
maps the address of every live `list_ele_t` to its contents, and every function of the
source is a function on that heap. Dereferencing `NULL` or a freed address is reported
as `Fault.invalid_deref`; the loops and the recursion of the source take a fuel argument
and report `Fault.out_of_fuel` when it runs out.

A C string is represented by the list of its bytes before the terminator.
-/

namespace Lab0

/-- The ways an execution can fail to produce a result. -/
inductive Fault where
  | invalid_deref
  | out_of_fuel
deriving DecidableEq

/-- Linked list element: `char *value; struct ELE *next;`. The string `value` points to
is kept in the node, as the list of its bytes before the terminator. -/
structure list_ele_t where
  value : List Nat
  next : Option Nat
deriving DecidableEq

/-- The heap of list elements: the live nodes, by address. -/
abbrev Heap := Nat → Option list_ele_t

/-- Queue structure: `head`, `tail` and `size`. The header declaring it is not part of
the sources; the three fields are the ones `queue.c` uses, and `size` is a count of
elements, kept as an integer. -/
structure queue_t where
  head : Option Nat
  tail : Option Nat
  size : Int
deriving DecidableEq

/-- Write the node `n` at address `a`. -/
def store (m : Heap) (a : Nat) (n : list_ele_t) : Heap :=
  fun x => if x = a then some n else m x

/-- The effect of `free` on a node address. -/
def release (m : Heap) (a : Nat) : Heap :=
  fun x => if x = a then none else m x

/-- The library function `strlen`. -/
def strlen (s : List Nat) : Nat := s.length

/-- The library function `memcpy`, as the bytes it copies: the first `n` of `src`. -/
def memcpy (src : List Nat) (n : Nat) : List Nat := src.take n

/-- The library function `strcmp`: the difference of the first pair of bytes that
differ, the terminator `0` being read where a string ends. -/
def strcmp : List Nat → List Nat → Int
  | [], [] => 0
  | [], b :: _ => 0 - (b : Int)
  | a :: _, [] => (a : Int) - 0
  | a :: as, b :: bs => if a = b then strcmp as bs else (a : Int) - (b : Int)

/-- The number of values of `size_t` (64-bit). -/
def SIZE_MOD : Nat := 2 ^ 64

/-- The expression `bufsize - 1` in `size_t` arithmetic. -/
def bufsize_minus_one (bufsize : Nat) : Nat := (bufsize + SIZE_MOD - 1) % SIZE_MOD

/-- Create empty queue; `NULL` if `malloc` fails (`alloc_ok = false`). -/
def q_new (alloc_ok : Bool) : Option queue_t :=
  if alloc_ok then some { head := none, tail := none, size := 0 } else none

/-- Free all storage used by queue: the loop of `q_free`, releasing node after node. -/
def free_loop : Nat → Heap → Option Nat → Except Fault Heap
  | 0, _, _ => .error .out_of_fuel
  | fuel + 1, m, curr =>
    match curr with
    | none => .ok m
    | some c =>
      match m c with
      | none => .error .invalid_deref
      | some n => free_loop fuel (release m c) n.next

/-- The function `q_free`. The queue object itself is released with the nodes. -/
def q_free (fuel : Nat) (m : Heap) (q : Option queue_t) : Except Fault Heap :=
  match q with
  | none => .ok m
  | some q => free_loop fuel m q.head

/-- The function `q_insert_head`. `node_alloc` is what `malloc` returns for the node
(`none` for `NULL`), `value_alloc` tells whether the `malloc` of the string succeeds.
The result is the returned boolean, the heap and the queue. -/
def q_insert_head (m : Heap) (q : Option queue_t) (s : List Nat)
    (node_alloc : Option Nat) (value_alloc : Bool) :
    Except Fault (Bool × Heap × Option queue_t) :=
  match q with
  | none => .ok (false, m, none)
  | some q =>
    match node_alloc with
    | none => .ok (false, m, some q)
    | some newh =>
      if value_alloc = false then .ok (false, release m newh, some q)
      else
        let m1 := store m newh { value := memcpy s (strlen s), next := q.head }
        let q1 : queue_t := { q with head := some newh, size := q.size + 1 }
        if q1.size = 1 then .ok (true, m1, some { q1 with tail := some newh })
        else .ok (true, m1, some q1)

/-- The function `q_insert_tail`, with the same conventions as `q_insert_head`.
The source writes `q->tail->next` without a test on `q->tail`. -/
def q_insert_tail (m : Heap) (q : Option queue_t) (s : List Nat)
    (node_alloc : Option Nat) (value_alloc : Bool) :
    Except Fault (Bool × Heap × Option queue_t) :=
  match q with
  | none => .ok (false, m, none)
  | some q =>
    match node_alloc with
    | none => .ok (false, m, some q)
    | some newt =>
      if value_alloc = false then .ok (false, release m newt, some q)
      else
        let m1 := store m newt { value := memcpy s (strlen s), next := none }
        match q.tail with
        | none => .error .invalid_deref
        | some t =>
          match m1 t with
          | none => .error .invalid_deref
          | some tn =>
            .ok (true, store m1 t { tn with next := some newt },
              some { q with tail := some newt, size := q.size + 1 })

/-- The function `q_remove_head`. `sp` tells whether an output buffer is supplied
(`sp != NULL`). The result is the returned boolean, the heap, the queue and the bytes
stored through `sp`, from `sp[0]` on (`none` when nothing is stored). -/
def q_remove_head (m : Heap) (q : Option queue_t) (sp : Bool) (bufsize : Nat) :
    Except Fault (Bool × Heap × Option queue_t × Option (List Nat)) :=
  match q with
  | none => .ok (false, m, none, none)
  | some q =>
    match q.head with
    | none => .ok (false, m, some q, none)
    | some h =>
      match m h with
      | none => .error .invalid_deref
      | some hn =>
        let str := hn.value
        let written : Option (List Nat) :=
          if sp = true then
            if strlen str > bufsize_minus_one bufsize then
              some (memcpy str (bufsize_minus_one bufsize) ++ [0])
            else
              some (memcpy str (strlen str) ++ [0])
          else none
        .ok (true, release m h, some { q with head := hn.next, size := q.size - 1 }, written)

/-- The function `q_size`. -/
def q_size (q : Option queue_t) : Int :=
  match q with
  | none => 0
  | some q => if q.head = none then 0 else q.size

/-- The loop of `q_reverse`, on `prev` and `curr`; it returns the final `prev`. -/
def reverse_loop : Nat → Heap → Option Nat → Option Nat → Except Fault (Heap × Option Nat)
  | 0, _, _, _ => .error .out_of_fuel
  | fuel + 1, m, prev, curr =>
    match curr with
    | none => .ok (m, prev)
    | some c =>
      match m c with
      | none => .error .invalid_deref
      | some n => reverse_loop fuel (store m c { n with next := prev }) (some c) n.next

/-- The function `q_reverse`. -/
def q_reverse (fuel : Nat) (m : Heap) (q : Option queue_t) :
    Except Fault (Heap × Option queue_t) :=
  match q with
  | none => .ok (m, none)
  | some q =>
    if q.head = none then .ok (m, some q)
    else
      match reverse_loop fuel m none q.head with
      | .error e => .error e
      | .ok (m1, prev) => .ok (m1, some { q with tail := q.head, head := prev })

/-- What `curr` points to in `merge`: the local `dummy` or a heap node. -/
inductive Cursor where
  | dummy
  | node (a : Nat)
deriving DecidableEq

/-- The assignment `curr->next = v`; the second component is `dummy.next`. -/
def set_next (m : Heap) (d : Option Nat) (curr : Cursor) (v : Option Nat) :
    Except Fault (Heap × Option Nat) :=
  match curr with
  | .dummy => .ok (m, v)
  | .node a =>
    match m a with
    | none => .error .invalid_deref
    | some n => .ok (store m a { n with next := v }, d)

/-- The loop of `merge` followed by the two tests after it; `d` is `dummy.next`.
It returns the heap and the final `dummy.next`. -/
def merge_loop : Nat → Heap → Option Nat → Cursor → Option Nat → Option Nat →
    Except Fault (Heap × Option Nat)
  | 0, _, _, _, _, _ => .error .out_of_fuel
  | fuel + 1, m, d, curr, left, right =>
    match left, right with
    | some l, some r =>
      match m l, m r with
      | some ln, some rn =>
        if strcmp ln.value rn.value < 0 then
          match set_next m d curr (some l) with
          | .error e => .error e
          | .ok (m1, d1) =>
            match m1 l with
            | none => .error .invalid_deref
            | some ln1 => merge_loop fuel m1 d1 (.node l) ln1.next (some r)
        else
          match set_next m d curr (some r) with
          | .error e => .error e
          | .ok (m1, d1) =>
            match m1 r with
            | none => .error .invalid_deref
            | some rn1 => merge_loop fuel m1 d1 (.node r) (some l) rn1.next
      | _, _ => .error .invalid_deref
    | none, some r => set_next m d curr (some r)
    | some l, none => set_next m d curr (some l)
    | none, none =>
      match set_next m d curr none with
      | .error e => .error e
      | .ok (m1, d1) => set_next m1 d1 curr none

/-- The function `merge`: it returns the heap and `dummy.next`. -/
def merge (fuel : Nat) (m : Heap) (left right : Option Nat) :
    Except Fault (Heap × Option Nat) :=
  merge_loop fuel m none .dummy left right

/-- The fast/slow walk of `merge_list`; it returns the final `slow`. -/
def split_loop : Nat → Heap → Option Nat → Option Nat → Except Fault (Option Nat)
  | 0, _, _, _ => .error .out_of_fuel
  | fuel + 1, m, slow, fast =>
    match fast with
    | none => .ok slow
    | some f =>
      match m f with
      | none => .error .invalid_deref
      | some fn =>
        match fn.next with
        | none => .ok slow
        | some f1 =>
          match slow with
          | none => .error .invalid_deref
          | some s =>
            match m s, m f1 with
            | some sn, some f1n => split_loop fuel m sn.next f1n.next
            | _, _ => .error .invalid_deref

/-- The function `merge_list`: it returns the heap and the head of the sorted chain. -/
def merge_list : Nat → Heap → Option Nat → Except Fault (Heap × Option Nat)
  | 0, _, _ => .error .out_of_fuel
  | fuel + 1, m, head =>
    match head with
    | none => .ok (m, none)
    | some h =>
      match m h with
      | none => .error .invalid_deref
      | some hn =>
        if hn.next = none then .ok (m, some h)
        else
          match split_loop fuel m (some h) hn.next with
          | .error e => .error e
          | .ok none => .error .invalid_deref
          | .ok (some s) =>
            match m s with
            | none => .error .invalid_deref
            | some sn =>
              match merge_list fuel (store m s { sn with next := none }) (some h) with
              | .error e => .error e
              | .ok (m2, left) =>
                match merge_list fuel m2 sn.next with
                | .error e => .error e
                | .ok (m3, right) => merge fuel m3 left right

/-- The loop of `q_sort` that walks to the last node. -/
def tail_walk : Nat → Heap → Option Nat → Except Fault (Option Nat)
  | 0, _, _ => .error .out_of_fuel
  | fuel + 1, m, curr =>
    match curr with
    | none => .ok none
    | some c =>
      match m c with
      | none => .error .invalid_deref
      | some n =>
        match n.next with
        | none => .ok (some c)
        | some c1 => tail_walk fuel m (some c1)

/-- The function `q_sort`. -/
def q_sort (fuel : Nat) (m : Heap) (q : Option queue_t) :
    Except Fault (Heap × Option queue_t) :=
  match q with
  | none => .ok (m, none)
  | some q =>
    if q.head = none then .ok (m, some q)
    else
      match merge_list fuel m q.head with
      | .error e => .error e
      | .ok (m1, h1) =>
        match tail_walk fuel m1 h1 with
        | .error e => .error e
        | .ok curr => .ok (m1, some { q with head := h1, tail := curr })

/-! ## The vocabulary of the statements -/

/-- The chain of `p`: following `next` from `p` visits the live nodes `l`, in this
order, and then reaches `q`. -/
def IsSeg (m : Heap) : Option Nat → List Nat → Option Nat → Prop
  | p, [], q => p = q
  | p, a :: l, q => p = some a ∧ (match m a with
      | some n => IsSeg m n.next l q
      | none => False)

/-- A finite chain that is not circular: from `p` through the nodes `l` to `NULL`. -/
def IsList (m : Heap) (p : Option Nat) (l : List Nat) : Prop := IsSeg m p l none

instance IsSeg.instDecidable (m : Heap) : ∀ p l q, Decidable (IsSeg m p l q)
  | p, [], q => by unfold IsSeg; exact inferInstance
  | p, a :: l, q => by
    unfold IsSeg
    cases h : m a with
    | none => exact inferInstance
    | some n =>
      have := IsSeg.instDecidable m n.next l q
      exact inferInstance

instance IsList.instDecidable (m : Heap) (p : Option Nat) (l : List Nat) :
    Decidable (IsList m p l) := IsSeg.instDecidable m p l none

/-- The string held by the node at `a` (empty when `a` is not live). -/
def value_at (m : Heap) (a : Nat) : List Nat :=
  match m a with
  | some n => n.value
  | none => []

/-- The two heaps have the same live nodes, holding the same strings: nothing was
allocated or freed, and only `next` links may differ. -/
def SameNodes (m m1 : Heap) : Prop :=
  ∀ a, Option.map list_ele_t.value (m1 a) = Option.map list_ele_t.value (m a)

/-- The value of `curr->next`, with `d` for `dummy.next`. -/
def next_of (m : Heap) (d : Option Nat) : Cursor → Option Nat
  | .dummy => d
  | .node a =>
    match m a with
    | some n => n.next
    | none => none

/-- The byte-wise lexicographic order of `strcmp` on strings. -/
def str_le (s t : List Nat) : Prop := strcmp s t ≤ 0

instance str_le.instDecidable (s t : List Nat) : Decidable (str_le s t) :=
  inferInstanceAs (Decidable (strcmp s t ≤ 0))

/-- The inner case of `merge_spec`: the left chain is `a :: l`, `k` emits what follows
once `a` is taken, and the recursion runs over the right chain. -/
def merge_go (v : Nat → List Nat) (a : Nat) (l : List Nat) (k : List Nat → List Nat) :
    List Nat → List Nat
  | [] => a :: l
  | b :: r => if strcmp (v a) (v b) < 0 then a :: k (b :: r) else b :: merge_go v a l k r

/-- The order in which `merge` emits the nodes of two chains, given the value `v a` of
each node `a`: the left front node when it is strictly smaller, else the right one. -/
def merge_spec (v : Nat → List Nat) : List Nat → List Nat → List Nat
  | [], r => r
  | a :: l, r => merge_go v a l (merge_spec v l) r

/-- The order in which `merge_list` leaves the nodes of a chain, with a bound on the
depth of the recursion. -/
def sort_fuel (v : Nat → List Nat) : Nat → List Nat → List Nat
  | 0, l => l
  | f + 1, l =>
    if l.length < 2 then l
    else merge_spec v (sort_fuel v f (l.take ((l.length + 1) / 2)))
      (sort_fuel v f (l.drop ((l.length + 1) / 2)))

/-- The order in which `merge_list` leaves the nodes of a chain. -/
def sort_spec (v : Nat → List Nat) (l : List Nat) : List Nat := sort_fuel v l.length l

/-- A queue in a state the operations maintain: the chain of `head` is the finite list
of nodes `l`, `size` counts them, and `tail` is the last of them when there is one. -/
def WellFormed (m : Heap) (q : queue_t) (l : List Nat) : Prop :=
  IsList m q.head l ∧ q.size = (l.length : Int) ∧ (l ≠ [] → q.tail = l.getLast?)

/-! ## Concrete heaps and queues -/

/-- The string "hello". -/
def hello : List Nat := [104, 101, 108, 108, 111]

/-- The string "apple". -/
def apple : List Nat := [97, 112, 112, 108, 101]

/-- The string "banana". -/
def banana : List Nat := [98, 97, 110, 97, 110, 97]

/-- The string "cherry". -/
def cherry : List Nat := [99, 104, 101, 114, 114, 121]

/-- The heap with no live node. -/
def heap_empty : Heap := fun _ => none

/-- One node, at address 1, holding "hello". -/
def heap_hello : Heap := store heap_empty 1 { value := hello, next := none }

/-- The queue whose only node is the one of `heap_hello`. -/
def queue_hello : queue_t := { head := some 1, tail := some 1, size := 1 }

/-- Three nodes at addresses 1, 2, 3 holding "banana", "apple", "cherry", chained in
this order. -/
def heap_fruit : Heap :=
  store (store (store heap_empty 3 { value := cherry, next := none })
    2 { value := apple, next := some 3 }) 1 { value := banana, next := some 2 }

/-- The queue over the three nodes of `heap_fruit`. -/
def queue_fruit : queue_t := { head := some 1, tail := some 3, size := 3 }

/-- A C string, as the list of its bytes before the terminator: no byte is 0. -/
def is_cstring (s : List Nat) : Prop := ∀ b ∈ s, b ≠ 0

instance is_cstring.instDecidable (s : List Nat) : Decidable (is_cstring s) :=
  inferInstanceAs (Decidable (∀ b ∈ s, b ≠ 0))

/-- The order of `strcmp` between two C strings. -/
def cstr_le (s t : List Nat) : Prop := str_le s t ∧ is_cstring s ∧ is_cstring t

/-- Two separate one-node chains, at addresses 1 and 2, both holding "apple". -/
def heap_tie : Heap :=
  store (store heap_empty 2 { value := apple, next := none }) 1 { value := apple, next := none }

/-- Three nodes at addresses 1, 2, 3 holding "apple", "apple", "banana", chained in this
order. -/
def heap_twins : Heap :=
  store (store (store heap_empty 3 { value := banana, next := none })
    2 { value := apple, next := some 3 }) 1 { value := apple, next := some 2 }

/-- The queue over the three nodes of `heap_twins`. -/
def queue_twins : queue_t := { head := some 1, tail := some 3, size := 3 }

/-! ## Chains -/

theorem isSeg_nil (m : Heap) (p q : Option Nat) : IsSeg m p [] q ↔ p = q := by
  simp [IsSeg]

theorem isSeg_cons (m : Heap) (p q : Option Nat) (a : Nat) (l : List Nat) :
    IsSeg m p (a :: l) q ↔ p = some a ∧ ∃ n, m a = some n ∧ IsSeg m n.next l q := by
  cases h : m a <;> simp [IsSeg, h]

theorem isList_nil (m : Heap) (p : Option Nat) : IsList m p [] ↔ p = none := by
  simp [IsList, IsSeg]

theorem isList_cons (m : Heap) (p : Option Nat) (a : Nat) (l : List Nat) :
    IsList m p (a :: l) ↔ p = some a ∧ ∃ n, m a = some n ∧ IsList m n.next l := by
  simp [IsList, isSeg_cons]

theorem isSeg_append (m : Heap) (l1 l2 : List Nat) (p q : Option Nat) :
    IsSeg m p (l1 ++ l2) q ↔ ∃ r, IsSeg m p l1 r ∧ IsSeg m r l2 q := by
  induction l1 generalizing p with
  | nil => simp [isSeg_nil]
  | cons a l1 ih =>
    simp only [List.cons_append, isSeg_cons, ih]
    constructor
    · rintro ⟨hp, n, hn, r, h1, h2⟩
      exact ⟨r, ⟨hp, n, hn, h1⟩, h2⟩
    · rintro ⟨r, ⟨hp, n, hn, h1⟩, h2⟩
      exact ⟨hp, n, hn, r, h1, h2⟩

theorem isSeg_frame (m m1 : Heap) (l : List Nat) (p q : Option Nat)
    (hm : ∀ a ∈ l, m1 a = m a) (h : IsSeg m p l q) : IsSeg m1 p l q := by
  induction l generalizing p with
  | nil => simpa [isSeg_nil] using h
  | cons a l ih =>
    rw [isSeg_cons] at h ⊢
    obtain ⟨hp, n, hn, h1⟩ := h
    refine ⟨hp, n, ?_, ih _ (fun b hb => hm b (List.mem_cons_of_mem _ hb)) h1⟩
    rw [hm a (List.mem_cons_self _ _), hn]

theorem isList_frame (m m1 : Heap) (l : List Nat) (p : Option Nat)
    (hm : ∀ a ∈ l, m1 a = m a) (h : IsList m p l) : IsList m1 p l :=
  isSeg_frame m m1 l p none hm h

theorem isList_unique (m : Heap) (l l1 : List Nat) (p : Option Nat)
    (h : IsList m p l) (h1 : IsList m p l1) : l = l1 := by
  induction l generalizing p l1 with
  | nil =>
    rw [isList_nil] at h
    cases l1 with
    | nil => rfl
    | cons b l1 =>
      rw [isList_cons] at h1
      rw [h] at h1
      simp at h1
  | cons a l ih =>
    rw [isList_cons] at h
    obtain ⟨hp, n, hn, h2⟩ := h
    cases l1 with
    | nil =>
      rw [isList_nil] at h1
      rw [h1] at hp
      simp at hp
    | cons b l1 =>
      rw [isList_cons] at h1
      obtain ⟨hp1, n1, hn1, h3⟩ := h1
      rw [hp] at hp1
      cases hp1
      rw [hn] at hn1
      cases hn1
      rw [ih l1 _ h2 h3]

theorem isList_live (m : Heap) (l : List Nat) (p : Option Nat) (h : IsList m p l)
    (a : Nat) (ha : a ∈ l) : ∃ n, m a = some n := by
  induction l generalizing p with
  | nil => simp at ha
  | cons b l ih =>
    rw [isList_cons] at h
    obtain ⟨_, n, hn, h2⟩ := h
    rcases List.mem_cons.mp ha with rfl | hmem
    · exact ⟨n, hn⟩
    · exact ih _ h2 hmem

theorem isList_suffix (m : Heap) (l1 l2 : List Nat) (p : Option Nat)
    (h : IsList m p (l1 ++ l2)) : ∃ r, IsSeg m p l1 r ∧ IsList m r l2 :=
  (isSeg_append m l1 l2 p none).mp h

theorem isList_nodup (m : Heap) (l : List Nat) (p : Option Nat) (h : IsList m p l) :
    l.Nodup := by
  induction l generalizing p with
  | nil => exact List.nodup_nil
  | cons a l ih =>
    have h0 := h
    rw [isList_cons] at h
    obtain ⟨hp, n, hn, h2⟩ := h
    refine List.nodup_cons.mpr ⟨?_, ih _ h2⟩
    intro hmem
    obtain ⟨l1, l2, rfl⟩ := List.append_of_mem hmem
    obtain ⟨r, _, h3⟩ := isList_suffix m l1 (a :: l2) _ h2
    have hr : r = some a := ((isList_cons m r a l2).mp h3).1
    rw [hr, ← hp] at h3
    have hlen := congrArg List.length (isList_unique m _ _ p h0 h3)
    simp at hlen
    omega

/-! ## Heap updates -/

theorem store_same (m : Heap) (a : Nat) (n : list_ele_t) : store m a n a = some n := by
  simp [store]

theorem store_other (m : Heap) (a b : Nat) (n : list_ele_t) (h : b ≠ a) :
    store m a n b = m b := by
  simp [store, h]

theorem release_same (m : Heap) (a : Nat) : release m a a = none := by
  simp [release]

theorem release_other (m : Heap) (a b : Nat) (h : b ≠ a) : release m a b = m b := by
  simp [release, h]

theorem bufsize_minus_one_pos (c : Nat) (h1 : 1 ≤ c) (h2 : c < SIZE_MOD) :
    bufsize_minus_one c = c - 1 := by
  unfold bufsize_minus_one
  have h3 : c + SIZE_MOD - 1 = (c - 1) + SIZE_MOD := by omega
  rw [h3, Nat.add_mod_right, Nat.mod_eq_of_lt (by omega)]

/-! ## Insertion and removal -/

/-- C4 (the code at the failing input): on a queue just returned by `q_new`, with both
allocations succeeding, `q_insert_tail` dereferences the absent `tail`, for every string
and every address of the new node; it does not return. -/
theorem q_insert_tail_on_new_queue (m : Heap) (s : List Nat) (a : Nat) :
    q_insert_tail m (q_new true) s (some a) true = .error .invalid_deref := rfl

/-- C5 (the code at the failing input): removing the only element of the queue
`queue_hello` succeeds and leaves `head` empty and `size` 0, but `tail` still holds the
address of the removed node, which is no longer live. -/
theorem q_remove_head_leaves_tail :
    ∃ m1 q1, q_remove_head heap_hello (some queue_hello) false 0 = .ok (true, m1, some q1, none) ∧
      q1.head = none ∧ q1.size = 0 ∧ q1.tail = some 1 ∧ m1 1 = none :=
  ⟨_, _, rfl, rfl, rfl, rfl, rfl⟩

/-- C6 (the code at the failing input): with a buffer of declared capacity 0, removing
the head "hello" stores the five characters and the terminator, six bytes, through
`sp`. -/
theorem q_remove_head_bufsize_zero :
    ∃ m1 q1, q_remove_head heap_hello (some queue_hello) true 0 =
      .ok (true, m1, q1, some (hello ++ [0])) ∧ (hello ++ [0]).length = 6 :=
  ⟨_, _, rfl, rfl⟩

/-- C7: on a queue whose chain is `a :: l`, with an output buffer of capacity `c ≥ 1`,
`q_remove_head` returns true, stores the first `min (strlen v) (c - 1)` characters of the
head value `v` followed by the terminator, frees the head node and leaves the rest of the
heap alone, so that the chain of the new head is `l`, and decrements `size`. -/
theorem q_remove_head_copies (m : Heap) (q : queue_t) (a : Nat) (l : List Nat) (c : Nat)
    (hl : IsList m q.head (a :: l)) (h1 : 1 ≤ c) (h2 : c < SIZE_MOD) :
    ∃ m1 q1, q_remove_head m (some q) true c =
        .ok (true, m1, some q1,
          some ((value_at m a).take (min (strlen (value_at m a)) (c - 1)) ++ [0])) ∧
      IsList m1 q1.head l ∧ q1.head = l.head? ∧ q1.tail = q.tail ∧
      q1.size = q.size - 1 ∧ m1 a = none ∧ ∀ b, b ≠ a → m1 b = m b := by
  have hnd := isList_nodup m _ _ hl
  rw [isList_cons] at hl
  obtain ⟨hp, n, hn, hrest⟩ := hl
  have hv : value_at m a = n.value := by simp [value_at, hn]
  have hnotin : a ∉ l := (List.nodup_cons.mp hnd).1
  have hchain : IsList (release m a) n.next l :=
    isList_frame m _ l _ (fun b hb => release_other m a b (fun h => hnotin (h ▸ hb))) hrest
  have hhead : n.next = l.head? := by
    cases l with
    | nil => simpa [isList_nil] using hrest
    | cons b l => simpa using ((isList_cons m _ b l).mp hrest).1
  refine ⟨release m a, { q with head := n.next, size := q.size - 1 }, ?_, hchain, hhead, rfl,
    rfl, release_same m a, fun b hb => release_other m a b hb⟩
  simp only [q_remove_head, hp, hn, hv, bufsize_minus_one_pos c h1 h2, strlen, memcpy]
  by_cases hlen : n.value.length > c - 1
  · have hmin : min n.value.length (c - 1) = c - 1 := by omega
    simp [hlen, hmin]
  · have hmin : min n.value.length (c - 1) = n.value.length := by omega
    simp [hlen, hmin]

/-- C7 at the example of the claim: "hello" removed into a buffer of capacity 4 leaves
"hel" and the terminator. -/
theorem q_remove_head_copies_witness :
    IsList heap_hello queue_hello.head [1] ∧ 1 ≤ 4 ∧ 4 < SIZE_MOD ∧
    ∃ m1 q1, q_remove_head heap_hello (some queue_hello) true 4 =
        .ok (true, m1, some q1,
          some ((value_at heap_hello 1).take (min (strlen (value_at heap_hello 1)) (4 - 1))
            ++ [0])) ∧
      IsList m1 q1.head [] ∧ q1.head = ([] : List Nat).head? ∧
      q1.tail = queue_hello.tail ∧
      q1.size = queue_hello.size - 1 ∧ m1 1 = none ∧ ∀ b, b ≠ 1 → m1 b = heap_hello b :=
  ⟨by decide, by decide, by decide,
    q_remove_head_copies heap_hello queue_hello 1 [] 4 (by decide) (by decide) (by decide)⟩

/-- C8: on a queue whose chain is `l` and whose `size` counts it, when `malloc` returns
a fresh address `a` and the string is allocated, `q_insert_head` returns true; the new
node holds `s` and links to the old head, every other node is untouched, so the chain is
`a :: l`; `head` is the new node, `size` is one more, and `tail` is unchanged when the
queue was not empty and is the new node when it was. -/
theorem q_insert_head_links (m : Heap) (q : queue_t) (l : List Nat) (s : List Nat) (a : Nat)
    (hl : IsList m q.head l) (hsize : q.size = (l.length : Int)) (hfresh : m a = none) :
    ∃ m1 q1, q_insert_head m (some q) s (some a) true = .ok (true, m1, some q1) ∧
      IsList m1 q1.head (a :: l) ∧ m1 a = some { value := s, next := q.head } ∧
      (∀ b, b ≠ a → m1 b = m b) ∧ q1.head = some a ∧ q1.size = q.size + 1 ∧
      (l ≠ [] → q1.tail = q.tail) ∧ (l = [] → q1.tail = some a) := by
  have hnotin : a ∉ l := fun hmem => by
    obtain ⟨n, hn⟩ := isList_live m l _ hl a hmem
    rw [hfresh] at hn
    cases hn
  have hm1 : ∀ b, b ≠ a → store m a { value := s, next := q.head } b = m b :=
    fun b hb => store_other m a b _ hb
  have hchain : IsList (store m a { value := s, next := q.head }) (some a) (a :: l) := by
    rw [isList_cons]
    exact ⟨rfl, _, store_same m a _, isList_frame m _ l _
      (fun b hb => hm1 b (fun h => hnotin (h ▸ hb))) hl⟩
  by_cases hq : q.size + 1 = 1
  · have hnil : l = [] := by
      have : (l.length : Int) = 0 := by omega
      exact List.length_eq_zero.mp (by exact_mod_cast this)
    refine ⟨_, { q with head := some a, size := q.size + 1, tail := some a }, ?_, hchain,
      store_same m a _, hm1, rfl, rfl, fun h => absurd hnil h, fun _ => rfl⟩
    simp [q_insert_head, hq, memcpy, strlen]
  · have hne : l ≠ [] := by
      intro h
      rw [h] at hsize
      simp at hsize
      omega
    refine ⟨_, { q with head := some a, size := q.size + 1 }, ?_, hchain,
      store_same m a _, hm1, rfl, rfl, fun _ => rfl, fun h => absurd h hne⟩
    simp [q_insert_head, hq, memcpy, strlen]

/-- C8 at an example: "apple" inserted at the head of the queue holding "hello". -/
theorem q_insert_head_links_witness :
    IsList heap_hello queue_hello.head [1] ∧ queue_hello.size = (([1] : List Nat).length : Int) ∧
    heap_hello 2 = none ∧
    ∃ m1 q1, q_insert_head heap_hello (some queue_hello) apple (some 2) true =
        .ok (true, m1, some q1) ∧
      IsList m1 q1.head [2, 1] ∧ m1 2 = some { value := apple, next := queue_hello.head } ∧
      (∀ b, b ≠ 2 → m1 b = heap_hello b) ∧ q1.head = some 2 ∧
      q1.size = queue_hello.size + 1 ∧
      (([1] : List Nat) ≠ [] → q1.tail = queue_hello.tail) ∧
      (([1] : List Nat) = [] → q1.tail = some 2) :=
  ⟨by decide, by decide, by decide,
    q_insert_head_links heap_hello queue_hello [1] apple 2 (by decide) (by decide) (by decide)⟩

/-- C9: on a well-formed queue that is not empty, when `malloc` returns a fresh address
`a` and the string is allocated, `q_insert_tail` returns true; the new node holds `s` and
an empty `next`, the old last node now links to it, every other node is untouched, so
the chain is the old one followed by `a`; `tail` is the new node, `head` is unchanged and
`size` is one more. -/
theorem q_insert_tail_links (m : Heap) (q : queue_t) (l : List Nat) (s : List Nat) (a : Nat)
    (hwf : WellFormed m q l) (hne : l ≠ []) (hfresh : m a = none) :
    ∃ m1 q1, q_insert_tail m (some q) s (some a) true = .ok (true, m1, some q1) ∧
      IsList m1 q1.head (l ++ [a]) ∧ m1 a = some { value := s, next := none } ∧
      (∀ b, b ∈ l → value_at m1 b = value_at m b) ∧
      (∀ b, b ≠ a → some b ≠ q.tail → m1 b = m b) ∧
      q1.tail = some a ∧ q1.head = q.head ∧ q1.size = q.size + 1 := by
  obtain ⟨hl, _, htail⟩ := hwf
  have hnd := isList_nodup m _ _ hl
  obtain ⟨l0, t, rfl⟩ : ∃ l0 t, l = l0 ++ [t] := by
    rcases List.eq_nil_or_concat l with h | ⟨l0, t, h⟩
    · exact absurd h hne
    · exact ⟨l0, t, by simpa using h⟩
  have hqt : q.tail = some t := by simpa using htail hne
  obtain ⟨r, hseg, hlast⟩ := isList_suffix m l0 [t] _ hl
  rw [isList_cons] at hlast
  obtain ⟨hr, tn, htn, hend⟩ := hlast
  rw [isList_nil] at hend
  have hta : t ≠ a := fun h => by
    rw [h, hfresh] at htn
    cases htn
  have hnotin : a ∉ l0 := fun hmem => by
    obtain ⟨n, hn⟩ := isList_live m _ _ hl a (List.mem_append_left _ hmem)
    rw [hfresh] at hn
    cases hn
  have htnot : t ∉ l0 := fun hmem => by
    have := List.nodup_append.mp hnd
    exact this.2.2 hmem (List.mem_singleton_self t) 
  refine ⟨store (store m a { value := s, next := none }) t { tn with next := some a },
    { q with tail := some a, size := q.size + 1 }, ?_, ?_, ?_, ?_, ?_, rfl, rfl, rfl⟩
  · simp [q_insert_tail, hqt, store_other _ a t _ hta, htn, memcpy, strlen]
  · show IsSeg _ _ (l0 ++ [t] ++ [a]) none
    rw [List.append_assoc, isSeg_append]
    refine ⟨some t, ?_, ?_⟩
    · rw [← hr]
      refine isSeg_frame m _ l0 _ _ (fun b hb => ?_) hseg
      have hbt : b ≠ t := fun h => htnot (h ▸ hb)
      have hba : b ≠ a := fun h => hnotin (h ▸ hb)
      rw [store_other _ t b _ hbt, store_other _ a b _ hba]
    · show IsSeg _ _ [t, a] none
      rw [isSeg_cons]
      refine ⟨rfl, _, store_same _ t _, ?_⟩
      rw [isSeg_cons]
      refine ⟨rfl, { value := s, next := none }, ?_, ?_⟩
      · rw [store_other _ t a _ (Ne.symm hta), store_same]
      · simp [isSeg_nil]
  · rw [store_other _ t a _ (Ne.symm hta), store_same]
  · intro b hb
    have hba : b ≠ a := fun h => by
      obtain ⟨n, hn⟩ := isList_live m _ _ hl b hb
      rw [h, hfresh] at hn
      cases hn
    by_cases hbt : b = t
    · subst hbt
      simp [value_at, store_same, htn]
    · simp [value_at, store_other _ t b _ hbt, store_other _ a b _ hba]
  · intro b hba hbt
    have hbt1 : b ≠ t := fun h => hbt (by rw [h, hqt])
    rw [store_other _ t b _ hbt1, store_other _ a b _ hba]

/-- C9 at an example: "apple" inserted at the tail of the queue holding "hello". -/
theorem q_insert_tail_links_witness :
    WellFormed heap_hello queue_hello [1] ∧ ([1] : List Nat) ≠ [] ∧ heap_hello 2 = none ∧
    ∃ m1 q1, q_insert_tail heap_hello (some queue_hello) apple (some 2) true =
        .ok (true, m1, some q1) ∧
      IsList m1 q1.head ([1] ++ [2]) ∧ m1 2 = some { value := apple, next := none } ∧
      (∀ b, b ∈ ([1] : List Nat) → value_at m1 b = value_at heap_hello b) ∧
      (∀ b, b ≠ 2 → some b ≠ queue_hello.tail → m1 b = heap_hello b) ∧
      q1.tail = some 2 ∧ q1.head = queue_hello.head ∧ q1.size = queue_hello.size + 1 :=
  ⟨⟨by decide, by decide, by decide⟩, by decide, by decide,
    q_insert_tail_links heap_hello queue_hello [1] apple 2
      ⟨by decide, by decide, by decide⟩ (by decide) (by decide)⟩

/-- C10: on a queue whose head, when not `NULL`, is a live node, `q_remove_head` returns;
it returns false exactly when the queue is absent or empty, and then the heap and the
queue are as before and nothing is stored in the buffer; without an output buffer
nothing is stored either, and the head node of a non-empty queue is still removed. -/
theorem q_remove_head_false_iff (m : Heap) (q : Option queue_t) (sp : Bool) (c : Nat)
    (hlive : ∀ q0 h, q = some q0 → q0.head = some h → ∃ n, m h = some n) :
    ∃ b m1 q1 w, q_remove_head m q sp c = .ok (b, m1, q1, w) ∧
      (b = false ↔ (q = none ∨ ∃ q0, q = some q0 ∧ q0.head = none)) ∧
      (b = false → m1 = m ∧ q1 = q ∧ w = none) ∧
      (sp = false → w = none) ∧
      (b = true → ∃ q0 h n, q = some q0 ∧ q0.head = some h ∧ m h = some n ∧
        m1 = release m h ∧ q1 = some { q0 with head := n.next, size := q0.size - 1 }) := by
  cases q with
  | none =>
    exact ⟨false, m, none, none, rfl, by simp, fun _ => ⟨rfl, rfl, rfl⟩, fun _ => rfl,
      fun h => by cases h⟩
  | some q0 =>
    cases hh : q0.head with
    | none =>
      refine ⟨false, m, some q0, none, by simp [q_remove_head, hh], by simp [hh],
        fun _ => ⟨rfl, rfl, rfl⟩, fun _ => rfl, fun h => by cases h⟩
    | some h =>
      obtain ⟨n, hn⟩ := hlive q0 h rfl hh
      refine ⟨true, release m h, some { q0 with head := n.next, size := q0.size - 1 },
        if sp = true then
          if strlen n.value > bufsize_minus_one c then
            some (memcpy n.value (bufsize_minus_one c) ++ [0])
          else some (memcpy n.value (strlen n.value) ++ [0])
        else none,
        by simp only [q_remove_head, hh, hn], by simp [hh], (fun h => by cases h), ?_,
        fun _ => ⟨q0, h, n, rfl, hh, hn, rfl, rfl⟩⟩
      intro hsp
      simp [hsp]

/-- C10 at an example: the queue holding "hello", without an output buffer. -/
theorem q_remove_head_false_iff_witness :
    (∀ q0 h, some queue_hello = some q0 → q0.head = some h → ∃ n, heap_hello h = some n) ∧
    ∃ b m1 q1 w, q_remove_head heap_hello (some queue_hello) false 0 = .ok (b, m1, q1, w) ∧
      (b = false ↔ (some queue_hello = none ∨ ∃ q0, some queue_hello = some q0 ∧ q0.head = none)) ∧
      (b = false → m1 = heap_hello ∧ q1 = some queue_hello ∧ w = none) ∧
      (false = false → w = none) ∧
      (b = true → ∃ q0 h n, some queue_hello = some q0 ∧ q0.head = some h ∧
        heap_hello h = some n ∧
        m1 = release heap_hello h ∧ q1 = some { q0 with head := n.next, size := q0.size - 1 }) :=
  have hlive : ∀ q0 h, some queue_hello = some q0 → q0.head = some h →
      ∃ n, heap_hello h = some n := by
    intro q0 h hq hh
    cases hq
    cases hh
    exact ⟨_, rfl⟩
  ⟨hlive, q_remove_head_false_iff heap_hello (some queue_hello) false 0 hlive⟩

/-! ## Heaps with the same nodes -/

theorem sameNodes_refl (m : Heap) : SameNodes m m := fun _ => rfl

theorem sameNodes_trans (m m1 m2 : Heap) (h1 : SameNodes m m1) (h2 : SameNodes m1 m2) :
    SameNodes m m2 := fun a => (h2 a).trans (h1 a)

theorem sameNodes_store (m : Heap) (a : Nat) (n : list_ele_t) (v : Option Nat)
    (h : m a = some n) : SameNodes m (store m a { n with next := v }) := by
  intro b
  by_cases hb : b = a
  · subst hb
    simp [store_same, h]
  · rw [store_other m a b _ hb]

theorem value_at_sameNodes (m m1 : Heap) (h : SameNodes m m1) : value_at m1 = value_at m := by
  funext a
  have := h a
  unfold value_at
  cases h1 : m1 a <;> cases h0 : m a <;> simp_all

theorem isList_head (m : Heap) (l : List Nat) (p : Option Nat) (h : IsList m p l) :
    p = l.head? := by
  cases l with
  | nil => simpa [isList_nil] using h
  | cons a l => simpa using ((isList_cons m p a l).mp h).1

theorem isList_last_next (m : Heap) (l : List Nat) (t : Nat) (p : Option Nat)
    (h : IsList m p (l ++ [t])) : ∃ n, m t = some n ∧ n.next = none := by
  obtain ⟨r, _, h1⟩ := isList_suffix m l [t] p h
  rw [isList_cons] at h1
  obtain ⟨_, n, hn, h2⟩ := h1
  exact ⟨n, hn, (isList_nil m _).mp h2⟩

/-! ## Reversal -/

theorem reverse_loop_spec (l : List Nat) : ∀ (m : Heap) (r : List Nat) (prev curr : Option Nat)
    (fuel : Nat), IsList m curr l → IsList m prev r → (∀ a ∈ l, a ∉ r) → l.length < fuel →
    ∃ m1 p1, reverse_loop fuel m prev curr = .ok (m1, p1) ∧
      IsList m1 p1 (l.reverse ++ r) ∧ SameNodes m m1 ∧ ∀ a, a ∉ l → m1 a = m a := by
  induction l with
  | nil =>
    intro m r prev curr fuel hl hr _ hfuel
    rw [isList_nil] at hl
    obtain ⟨f, rfl⟩ : ∃ f, fuel = f + 1 := ⟨fuel - 1, by simp at hfuel; omega⟩
    exact ⟨m, prev, by simp [reverse_loop, hl], by simpa using hr, sameNodes_refl m,
      fun _ _ => rfl⟩
  | cons c l ih =>
    intro m r prev curr fuel hl hr hdis hfuel
    have hnd := isList_nodup m _ _ hl
    rw [isList_cons] at hl
    obtain ⟨hc, n, hn, hrest⟩ := hl
    obtain ⟨f, rfl⟩ : ∃ f, fuel = f + 1 := ⟨fuel - 1, by simp at hfuel; omega⟩
    have hcl : c ∉ l := (List.nodup_cons.mp hnd).1
    have hcr : c ∉ r := hdis c (List.mem_cons_self _ _)
    have h1 : IsList (store m c { n with next := prev }) n.next l :=
      isList_frame m _ l _ (fun b hb => store_other m c b _ (fun h => hcl (h ▸ hb))) hrest
    have h2 : IsList (store m c { n with next := prev }) (some c) (c :: r) := by
      rw [isList_cons]
      exact ⟨rfl, _, store_same m c _, isList_frame m _ r _
        (fun b hb => store_other m c b _ (fun h => hcr (h ▸ hb))) hr⟩
    have h3 : ∀ a ∈ l, a ∉ c :: r := by
      intro a ha hmem
      rcases List.mem_cons.mp hmem with rfl | hmem
      · exact hcl ha
      · exact hdis a (List.mem_cons_of_mem _ ha) hmem
    obtain ⟨m2, p1, hrun, hchain, hsame, hout⟩ :=
      ih _ (c :: r) (some c) n.next f h1 h2 h3 (by simp at hfuel; omega)
    refine ⟨m2, p1, ?_, ?_, sameNodes_trans _ _ _ (sameNodes_store m c n prev hn) hsame, ?_⟩
    · simp only [reverse_loop, hc, hn]
      exact hrun
    · simpa using hchain
    · intro a ha
      have hac : a ≠ c := fun h => ha (h ▸ List.mem_cons_self _ _)
      rw [hout a (fun h => ha (List.mem_cons_of_mem _ h)), store_other m c a _ hac]

/-- C3: on a well-formed queue that is not empty, with fuel for the loop, `q_reverse`
returns; the chain of the new head is the reverse of the old chain, the new head is the
former tail, the new tail is the former head and its `next` is empty, `size` is
unchanged, and the heap has the same nodes with the same strings. -/
theorem q_reverse_reverses (m : Heap) (q : queue_t) (l : List Nat) (fuel : Nat)
    (hwf : WellFormed m q l) (hne : l ≠ []) (hfuel : l.length < fuel) :
    ∃ m1 q1, q_reverse fuel m (some q) = .ok (m1, some q1) ∧
      IsList m1 q1.head l.reverse ∧ q1.head = q.tail ∧ q1.tail = q.head ∧
      (∀ t, q1.tail = some t → ∃ n, m1 t = some n ∧ n.next = none) ∧
      q1.size = q.size ∧ SameNodes m m1 ∧ ∀ a, a ∉ l → m1 a = m a := by
  obtain ⟨hl, _, htail⟩ := hwf
  obtain ⟨m1, p1, hrun, hchain, hsame, hout⟩ :=
    reverse_loop_spec l m [] none q.head fuel hl ((isList_nil m none).mpr rfl)
      (fun _ _ => List.not_mem_nil _) hfuel
  rw [List.append_nil] at hchain
  have hhead : q.head ≠ none := by
    rw [isList_head m l _ hl]
    cases l with
    | nil => exact absurd rfl hne
    | cons a l => simp
  refine ⟨m1, { q with tail := q.head, head := p1 }, ?_, hchain, ?_, rfl, ?_, rfl, hsame, hout⟩
  · simp [q_reverse, hhead, hrun]
  · show p1 = q.tail
    rw [htail hne, isList_head m1 _ _ hchain, List.head?_reverse]
  · intro t ht
    have ht1 : q.head = some t := ht
    obtain ⟨l0, rfl⟩ : ∃ l0, l = t :: l0 := by
      cases l with
      | nil => exact absurd rfl hne
      | cons a l0 =>
        have := isList_head m _ _ hl
        rw [ht1] at this
        simp at this
        exact ⟨l0, by rw [this]⟩
    rw [List.reverse_cons] at hchain
    exact isList_last_next m1 _ t _ hchain

/-- C3 at an example: the queue of "banana", "apple", "cherry". -/
theorem q_reverse_reverses_witness :
    WellFormed heap_fruit queue_fruit [1, 2, 3] ∧ ([1, 2, 3] : List Nat) ≠ [] ∧
    ([1, 2, 3] : List Nat).length < 4 ∧
    ∃ m1 q1, q_reverse 4 heap_fruit (some queue_fruit) = .ok (m1, some q1) ∧
      IsList m1 q1.head ([1, 2, 3] : List Nat).reverse ∧ q1.head = queue_fruit.tail ∧
      q1.tail = queue_fruit.head ∧
      (∀ t, q1.tail = some t → ∃ n, m1 t = some n ∧ n.next = none) ∧
      q1.size = queue_fruit.size ∧ SameNodes heap_fruit m1 ∧
      ∀ a, a ∉ ([1, 2, 3] : List Nat) → m1 a = heap_fruit a :=
  ⟨⟨by decide, by decide, by decide⟩, by decide, by decide,
    q_reverse_reverses heap_fruit queue_fruit [1, 2, 3] 4
      ⟨by decide, by decide, by decide⟩ (by decide) (by decide)⟩

/-! ## Merging two chains -/

theorem merge_spec_nil_left (v : Nat → List Nat) (r : List Nat) : merge_spec v [] r = r := rfl

theorem merge_spec_nil_right (v : Nat → List Nat) (l : List Nat) : merge_spec v l [] = l := by
  cases l <;> rfl

theorem merge_spec_cons (v : Nat → List Nat) (a b : Nat) (l r : List Nat) :
    merge_spec v (a :: l) (b :: r) =
      if strcmp (v a) (v b) < 0 then a :: merge_spec v l (b :: r)
      else b :: merge_spec v (a :: l) r := rfl

theorem set_next_spec (m : Heap) (d : Option Nat) (curr : Cursor) (v : Option Nat)
    (hcurr : ∀ c, curr = .node c → ∃ n, m c = some n) :
    ∃ m1 d1, set_next m d curr v = .ok (m1, d1) ∧ next_of m1 d1 curr = v ∧
      SameNodes m m1 ∧ (∀ a, curr ≠ .node a → m1 a = m a) ∧ (curr ≠ .dummy → d1 = d) ∧
      (∀ c, curr = .node c → ∃ n, m1 c = some n) := by
  cases curr with
  | dummy =>
    exact ⟨m, v, rfl, rfl, sameNodes_refl m, fun _ _ => rfl, fun h => absurd rfl h,
      fun c h => by cases h⟩
  | node c =>
    obtain ⟨n, hn⟩ := hcurr c rfl
    refine ⟨store m c { n with next := v }, d, by simp [set_next, hn], ?_,
      sameNodes_store m c n v hn, ?_, fun _ => rfl, ?_⟩
    · simp [next_of, store_same]
    · intro a ha
      exact store_other m c a _ (fun h => ha (by rw [h]))
    · intro c1 h
      cases h
      exact ⟨_, store_same m c _⟩

theorem next_of_node (m : Heap) (d : Option Nat) (a : Nat) (n : list_ele_t) (h : m a = some n) :
    next_of m d (.node a) = n.next := by
  simp [next_of, h]

theorem merge_loop_spec (fuel : Nat) : ∀ (m : Heap) (d : Option Nat) (curr : Cursor)
    (left right : Option Nat) (l1 l2 : List Nat),
    IsList m left l1 → IsList m right l2 → (∀ a ∈ l1, a ∉ l2) →
    (∀ c, curr = .node c → c ∉ l1 ∧ c ∉ l2 ∧ ∃ n, m c = some n) →
    l1.length + l2.length < fuel →
    ∃ m1 d1, merge_loop fuel m d curr left right = .ok (m1, d1) ∧
      IsList m1 (next_of m1 d1 curr) (merge_spec (value_at m) l1 l2) ∧
      SameNodes m m1 ∧
      (∀ a, a ∉ l1 → a ∉ l2 → curr ≠ .node a → m1 a = m a) ∧
      (curr ≠ .dummy → d1 = d) := by
  induction fuel with
  | zero =>
    intro m d curr left right l1 l2 _ _ _ _ hfuel
    omega
  | succ fuel ih =>
    intro m d curr left right l1 l2 h1 h2 hdis hcurr hfuel
    have hlive : ∀ c, curr = .node c → ∃ n, m c = some n := fun c hc => (hcurr c hc).2.2
    cases l1 with
    | nil =>
      rw [isList_nil] at h1
      subst h1
      cases l2 with
      | nil =>
        rw [isList_nil] at h2
        subst h2
        obtain ⟨m1, d1, hrun1, _, hs1, hout1, hd1, hlive1⟩ := set_next_spec m d curr none hlive
        obtain ⟨m2, d2, hrun2, hnext2, hs2, hout2, hd2, _⟩ :=
          set_next_spec m1 d1 curr none hlive1
        refine ⟨m2, d2, by simp [merge_loop, hrun1, hrun2], ?_,
          sameNodes_trans _ _ _ hs1 hs2, ?_, ?_⟩
        · rw [hnext2, merge_spec_nil_left, isList_nil]
        · intro a _ _ ha
          rw [hout2 a ha, hout1 a ha]
        · intro h
          rw [hd2 h, hd1 h]
      | cons b l2 =>
        have h2c := h2
        rw [isList_cons] at h2c
        obtain ⟨hr, _⟩ := h2c
        subst hr
        obtain ⟨m1, d1, hrun1, hnext1, hs1, hout1, hd1, _⟩ :=
          set_next_spec m d curr (some b) hlive
        refine ⟨m1, d1, by simp [merge_loop, hrun1], ?_, hs1, ?_, hd1⟩
        · rw [hnext1, merge_spec_nil_left]
          refine isList_frame m m1 _ _ (fun a ha => hout1 a (fun h => ?_)) h2
          exact (hcurr a h).2.1 ha
        · intro a _ _ ha
          exact hout1 a ha
    | cons a l1 =>
      have h1c := h1
      rw [isList_cons] at h1c
      obtain ⟨hl, an, han, h1rest⟩ := h1c
      subst hl
      cases l2 with
      | nil =>
        rw [isList_nil] at h2
        subst h2
        obtain ⟨m1, d1, hrun1, hnext1, hs1, hout1, hd1, _⟩ :=
          set_next_spec m d curr (some a) hlive
        refine ⟨m1, d1, by simp [merge_loop, hrun1], ?_, hs1, ?_, hd1⟩
        · rw [hnext1, merge_spec_nil_right]
          refine isList_frame m m1 _ _ (fun c hc => hout1 c (fun h => ?_)) h1
          exact (hcurr c h).1 hc
        · intro c _ _ hc
          exact hout1 c hc
      | cons b l2 =>
        have h2c := h2
        rw [isList_cons] at h2c
        obtain ⟨hr, bn, hbn, h2rest⟩ := h2c
        subst hr
        have hnd1 := isList_nodup m _ _ h1
        have hnd2 := isList_nodup m _ _ h2
        have hva : value_at m a = an.value := by simp [value_at, han]
        have hvb : value_at m b = bn.value := by simp [value_at, hbn]
        by_cases hcmp : strcmp an.value bn.value < 0
        · -- the left node is emitted
          obtain ⟨m1, d1, hrun1, hnext1, hs1, hout1, hd1, _⟩ :=
            set_next_spec m d curr (some a) hlive
          have hca : curr ≠ .node a := fun h => (hcurr a h).1 (List.mem_cons_self _ _)
          have hm1a : m1 a = some an := by rw [hout1 a hca, han]
          have hfr : ∀ c, c ∈ a :: l1 ∨ c ∈ b :: l2 → m1 c = m c := by
            intro c hc
            refine hout1 c (fun h => ?_)
            rcases hc with hc | hc
            · exact (hcurr c h).1 hc
            · exact (hcurr c h).2.1 hc
          have ha1 : a ∉ l1 := (List.nodup_cons.mp hnd1).1
          have ha2 : a ∉ b :: l2 := hdis a (List.mem_cons_self _ _)
          obtain ⟨m2, d2, hrun2, hchain2, hs2, hout2, hd2⟩ :=
            ih m1 d1 (.node a) an.next (some b) l1 (b :: l2)
              (isList_frame m m1 _ _ (fun c hc => hfr c (Or.inl (List.mem_cons_of_mem _ hc)))
                h1rest)
              (isList_frame m m1 _ _ (fun c hc => hfr c (Or.inr hc)) h2)
              (fun c hc => hdis c (List.mem_cons_of_mem _ hc))
              (fun c hc => by
                cases hc
                exact ⟨ha1, ha2, an, hm1a⟩)
              (by simp at hfuel ⊢; omega)
          have hm2a : ∃ n2, m2 a = some n2 := by
            have := hs2 a
            rw [hm1a] at this
            cases h : m2 a with
            | none => rw [h] at this; simp at this
            | some n2 => exact ⟨n2, rfl⟩
          obtain ⟨n2, hn2⟩ := hm2a
          rw [next_of_node m2 d2 a n2 hn2, value_at_sameNodes m m1 hs1] at hchain2
          refine ⟨m2, d2, ?_, ?_, sameNodes_trans _ _ _ hs1 hs2, ?_, ?_⟩
          · simp only [merge_loop, han, hbn, hcmp, if_true, hrun1, hm1a]
            exact hrun2
          · rw [merge_spec_cons, hva, hvb, if_pos hcmp, isList_cons]
            refine ⟨?_, n2, hn2, hchain2⟩
            cases curr with
            | dummy =>
              have : d2 = d1 := hd2 (by simp)
              rw [this]
              exact hnext1
            | node c =>
              have hc := hcurr c rfl
              have hm2c : m2 c = m1 c := by
                refine hout2 c (fun h => hc.1 (List.mem_cons_of_mem _ h)) hc.2.1 (fun h => ?_)
                cases h
                exact hc.1 (List.mem_cons_self _ _)
              simp only [next_of] at hnext1 ⊢
              rw [hm2c]
              exact hnext1
          · intro c hc1 hc2 hc
            have hca2 : c ≠ a := fun h => hc1 (h ▸ List.mem_cons_self _ _)
            rw [hout2 c (fun h => hc1 (List.mem_cons_of_mem _ h)) hc2
              (fun h => hca2 (by cases h; rfl)), hout1 c hc]
          · intro h
            rw [hd2 (by simp), hd1 h]
        · -- the right node is emitted
          obtain ⟨m1, d1, hrun1, hnext1, hs1, hout1, hd1, _⟩ :=
            set_next_spec m d curr (some b) hlive
          have hcb : curr ≠ .node b := fun h => (hcurr b h).2.1 (List.mem_cons_self _ _)
          have hm1b : m1 b = some bn := by rw [hout1 b hcb, hbn]
          have hfr : ∀ c, c ∈ a :: l1 ∨ c ∈ b :: l2 → m1 c = m c := by
            intro c hc
            refine hout1 c (fun h => ?_)
            rcases hc with hc | hc
            · exact (hcurr c h).1 hc
            · exact (hcurr c h).2.1 hc
          have hb2 : b ∉ l2 := (List.nodup_cons.mp hnd2).1
          have hb1 : b ∉ a :: l1 := fun h => hdis b h (List.mem_cons_self _ _)
          obtain ⟨m2, d2, hrun2, hchain2, hs2, hout2, hd2⟩ :=
            ih m1 d1 (.node b) (some a) bn.next (a :: l1) l2
              (isList_frame m m1 _ _ (fun c hc => hfr c (Or.inl hc)) h1)
              (isList_frame m m1 _ _ (fun c hc => hfr c (Or.inr (List.mem_cons_of_mem _ hc)))
                h2rest)
              (fun c hc hc2 => hdis c hc (List.mem_cons_of_mem _ hc2))
              (fun c hc => by
                cases hc
                exact ⟨hb1, hb2, bn, hm1b⟩)
              (by simp at hfuel ⊢; omega)
          have hm2b : ∃ n2, m2 b = some n2 := by
            have := hs2 b
            rw [hm1b] at this
            cases h : m2 b with
            | none => rw [h] at this; simp at this
            | some n2 => exact ⟨n2, rfl⟩
          obtain ⟨n2, hn2⟩ := hm2b
          rw [next_of_node m2 d2 b n2 hn2, value_at_sameNodes m m1 hs1] at hchain2
          refine ⟨m2, d2, ?_, ?_, sameNodes_trans _ _ _ hs1 hs2, ?_, ?_⟩
          · simp only [merge_loop, han, hbn, hcmp, if_false, hrun1, hm1b]
            exact hrun2
          · rw [merge_spec_cons, hva, hvb, if_neg hcmp, isList_cons]
            refine ⟨?_, n2, hn2, hchain2⟩
            cases curr with
            | dummy =>
              have : d2 = d1 := hd2 (by simp)
              rw [this]
              exact hnext1
            | node c =>
              have hc := hcurr c rfl
              have hm2c : m2 c = m1 c := by
                refine hout2 c hc.1 (fun h => hc.2.1 (List.mem_cons_of_mem _ h)) (fun h => ?_)
                cases h
                exact hc.2.1 (List.mem_cons_self _ _)
              simp only [next_of] at hnext1 ⊢
              rw [hm2c]
              exact hnext1
          · intro c hc1 hc2 hc
            have hcb2 : c ≠ b := fun h => hc2 (h ▸ List.mem_cons_self _ _)
            rw [hout2 c hc1 (fun h => hc2 (List.mem_cons_of_mem _ h))
              (fun h => hcb2 (by cases h; rfl)), hout1 c hc]
          · intro h
            rw [hd2 (by simp), hd1 h]

/-! ## The order of `strcmp` and the sorted output of `merge_spec` -/

theorem strcmp_total (s : List Nat) : ∀ t, ¬ strcmp s t < 0 → strcmp t s ≤ 0 := by
  induction s with
  | nil =>
    intro t h
    cases t with
    | nil => simp [strcmp]
    | cons b t =>
      simp only [strcmp] at h ⊢
      omega
  | cons a s ih =>
    intro t h
    cases t with
    | nil =>
      simp only [strcmp]
      omega
    | cons b t =>
      simp only [strcmp] at h ⊢
      by_cases hab : a = b
      · subst hab
        simp only [if_true] at h ⊢
        exact ih t h
      · have hba : ¬ b = a := fun h => hab h.symm
        rw [if_neg hab] at h
        rw [if_neg hba]
        omega

theorem merge_spec_chain (v : Nat → List Nat) (l1 : List Nat) : ∀ (l2 : List Nat) (x : Nat),
    List.Chain (fun a b => str_le (v a) (v b)) x l1 →
    List.Chain (fun a b => str_le (v a) (v b)) x l2 →
    List.Chain (fun a b => str_le (v a) (v b)) x (merge_spec v l1 l2) := by
  induction l1 with
  | nil =>
    intro l2 x _ h2
    simpa [merge_spec_nil_left] using h2
  | cons a l1 ih1 =>
    intro l2
    induction l2 with
    | nil =>
      intro x h1 _
      simpa [merge_spec_nil_right] using h1
    | cons b l2 ih2 =>
      intro x h1 h2
      rw [merge_spec_cons]
      rw [List.chain_cons] at h1 h2
      by_cases hcmp : strcmp (v a) (v b) < 0
      · rw [if_pos hcmp, List.chain_cons]
        refine ⟨h1.1, ih1 (b :: l2) a h1.2 ?_⟩
        rw [List.chain_cons]
        exact ⟨le_of_lt hcmp, h2.2⟩
      · rw [if_neg hcmp, List.chain_cons]
        refine ⟨h2.1, ih2 b ?_ h2.2⟩
        rw [List.chain_cons]
        exact ⟨strcmp_total _ _ hcmp, h1.2⟩

theorem merge_spec_sorted (v : Nat → List Nat) (l1 l2 : List Nat)
    (h1 : List.Chain' (fun a b => str_le (v a) (v b)) l1)
    (h2 : List.Chain' (fun a b => str_le (v a) (v b)) l2) :
    List.Chain' (fun a b => str_le (v a) (v b)) (merge_spec v l1 l2) := by
  cases l1 with
  | nil => simpa [merge_spec_nil_left] using h2
  | cons a l1 =>
    cases l2 with
    | nil => simpa [merge_spec_nil_right] using h1
    | cons b l2 =>
      rw [merge_spec_cons]
      by_cases hcmp : strcmp (v a) (v b) < 0
      · rw [if_pos hcmp]
        show List.Chain _ a _
        refine merge_spec_chain v l1 (b :: l2) a h1 ?_
        rw [List.chain_cons]
        exact ⟨le_of_lt hcmp, h2⟩
      · rw [if_neg hcmp]
        show List.Chain _ b _
        refine merge_spec_chain v (a :: l1) l2 b ?_ h2
        rw [List.chain_cons]
        exact ⟨strcmp_total _ _ hcmp, h1⟩

theorem merge_spec_perm (v : Nat → List Nat) (l1 : List Nat) : ∀ l2 : List Nat,
    (merge_spec v l1 l2).Perm (l1 ++ l2) := by
  induction l1 with
  | nil =>
    intro l2
    simp [merge_spec_nil_left]
  | cons a l1 ih1 =>
    intro l2
    induction l2 with
    | nil => simp [merge_spec_nil_right]
    | cons b l2 ih2 =>
      rw [merge_spec_cons]
      by_cases hcmp : strcmp (v a) (v b) < 0
      · rw [if_pos hcmp]
        exact (ih1 (b :: l2)).cons a
      · rw [if_neg hcmp]
        refine (ih2.cons b).trans ?_
        exact (@List.perm_middle Nat b (a :: l1) l2).symm

/-! ## The order left by `merge_list` -/

theorem sort_fuel_short (v : Nat → List Nat) (f : Nat) (l : List Nat) (h : l.length < 2) :
    sort_fuel v f l = l := by
  cases f with
  | zero => rfl
  | succ f => simp [sort_fuel, h]

theorem sort_fuel_succ (v : Nat → List Nat) (f : Nat) (l : List Nat) (h : ¬ l.length < 2) :
    sort_fuel v (f + 1) l =
      merge_spec v (sort_fuel v f (l.take ((l.length + 1) / 2)))
        (sort_fuel v f (l.drop ((l.length + 1) / 2))) := by
  simp [sort_fuel, h]

theorem sort_fuel_stable (v : Nat → List Nat) (f : Nat) : ∀ (g : Nat) (l : List Nat),
    l.length ≤ f → l.length ≤ g → sort_fuel v f l = sort_fuel v g l := by
  induction f with
  | zero =>
    intro g l hf _
    rw [sort_fuel_short v 0 l (by omega), sort_fuel_short v g l (by omega)]
  | succ f ih =>
    intro g l hf hg
    by_cases hlen : l.length < 2
    · rw [sort_fuel_short v _ l hlen, sort_fuel_short v g l hlen]
    · obtain ⟨g1, rfl⟩ : ∃ g1, g = g1 + 1 := ⟨g - 1, by omega⟩
      rw [sort_fuel_succ v f l hlen, sort_fuel_succ v g1 l hlen]
      have ht : (l.take ((l.length + 1) / 2)).length ≤ l.length - 1 := by
        rw [List.length_take]
        omega
      have hd : (l.drop ((l.length + 1) / 2)).length ≤ l.length - 1 := by
        rw [List.length_drop]
        omega
      rw [ih g1 _ (by omega) (by omega), ih g1 (l.drop _) (by omega) (by omega)]

theorem sort_spec_eq (v : Nat → List Nat) (f : Nat) (l : List Nat) (h : l.length ≤ f) :
    sort_fuel v f l = sort_spec v l :=
  sort_fuel_stable v f l.length l h (le_refl _)

theorem sort_fuel_perm (v : Nat → List Nat) (f : Nat) : ∀ l : List Nat,
    (sort_fuel v f l).Perm l := by
  induction f with
  | zero => intro l; exact List.Perm.refl _
  | succ f ih =>
    intro l
    by_cases hlen : l.length < 2
    · rw [sort_fuel_short v _ l hlen]
    · rw [sort_fuel_succ v f l hlen]
      refine (merge_spec_perm v _ _).trans ?_
      refine ((ih _).append (ih _)).trans ?_
      rw [List.take_append_drop]

theorem sort_fuel_sorted (v : Nat → List Nat) (f : Nat) : ∀ l : List Nat, l.length ≤ f →
    List.Chain' (fun a b => str_le (v a) (v b)) (sort_fuel v f l) := by
  induction f with
  | zero =>
    intro l hl
    have : l = [] := List.length_eq_zero.mp (by omega)
    subst this
    simp [sort_fuel]
  | succ f ih =>
    intro l hl
    by_cases hlen : l.length < 2
    · rw [sort_fuel_short v _ l hlen]
      cases l with
      | nil => simp
      | cons a l =>
        cases l with
        | nil => simp
        | cons b l =>
          simp only [List.length_cons] at hlen
          omega
    · rw [sort_fuel_succ v f l hlen]
      refine merge_spec_sorted v _ _ (ih _ ?_) (ih _ ?_)
      · rw [List.length_take]
        omega
      · rw [List.length_drop]
        omega

theorem sort_spec_perm (v : Nat → List Nat) (l : List Nat) : (sort_spec v l).Perm l :=
  sort_fuel_perm v l.length l

theorem sort_spec_sorted (v : Nat → List Nat) (l : List Nat) :
    List.Chain' (fun a b => str_le (v a) (v b)) (sort_spec v l) :=
  sort_fuel_sorted v l.length l (le_refl _)

/-! ## Splitting a chain and sorting it -/

theorem split_loop_spec (fuel : Nat) : ∀ (m : Heap) (slow fast : Option Nat) (ls lf : List Nat),
    IsList m slow ls → IsList m fast lf → lf.length / 2 < ls.length → lf.length / 2 < fuel →
    split_loop fuel m slow fast = .ok (ls[lf.length / 2]?) := by
  induction fuel with
  | zero =>
    intro m slow fast ls lf _ _ _ hfuel
    omega
  | succ fuel ih =>
    intro m slow fast ls lf hs hf hlen hfuel
    cases lf with
    | nil =>
      rw [isList_nil] at hf
      subst hf
      have := isList_head m ls slow hs
      cases ls with
      | nil => simp at hlen
      | cons s ls => simp [split_loop, this]
    | cons f lf =>
      rw [isList_cons] at hf
      obtain ⟨hfast, fn, hfn, hf1⟩ := hf
      subst hfast
      cases lf with
      | nil =>
        rw [isList_nil] at hf1
        have := isList_head m ls slow hs
        cases ls with
        | nil => exact absurd hlen (Nat.not_lt_zero _)
        | cons s ls => simp [split_loop, this, hfn, hf1]
      | cons f1 lf =>
        rw [isList_cons] at hf1
        obtain ⟨hnext, f1n, hf1n, hf2⟩ := hf1
        have hk : (f :: f1 :: lf).length / 2 = lf.length / 2 + 1 := by
          simp only [List.length_cons]
          omega
        rw [hk] at hlen hfuel ⊢
        cases ls with
        | nil => simp at hlen
        | cons s ls =>
          rw [isList_cons] at hs
          obtain ⟨hslow, sn, hsn, hs1⟩ := hs
          subst hslow
          simp only [split_loop, hfn, hnext, hsn, hf1n, List.getElem?_cons_succ]
          exact ih m sn.next f1n.next ls lf hs1 hf2 (by simp at hlen; omega) (by omega)

theorem isList_cut (m : Heap) (l1 l2 : List Nat) (p : Option Nat) (s : Nat) (sn : list_ele_t)
    (h : IsList m p (l1 ++ s :: l2)) (hs : m s = some sn) :
    IsList (store m s { sn with next := none }) p (l1 ++ [s]) ∧
      IsList (store m s { sn with next := none }) sn.next l2 := by
  have hnd := isList_nodup m _ _ h
  obtain ⟨r, hseg, hrest⟩ := isList_suffix m l1 (s :: l2) p h
  rw [isList_cons] at hrest
  obtain ⟨hr, n, hn, hl2⟩ := hrest
  rw [hs] at hn
  cases hn
  have hnd1 := List.nodup_append.mp hnd
  have hs1 : s ∉ l1 := fun hmem => hnd1.2.2 hmem (List.mem_cons_self _ _)
  have hs2 : s ∉ l2 := (List.nodup_cons.mp hnd1.2.1).1
  constructor
  · show IsSeg _ p (l1 ++ [s]) none
    rw [isSeg_append]
    refine ⟨r, isSeg_frame m _ l1 p r
      (fun b hb => store_other m s b _ (fun h => hs1 (h ▸ hb))) hseg, ?_⟩
    rw [isSeg_cons]
    refine ⟨hr, _, store_same m s _, ?_⟩
    simp [isSeg_nil]
  · exact isList_frame m _ l2 _ (fun b hb => store_other m s b _ (fun h => hs2 (h ▸ hb))) hl2

theorem merge_list_spec (fuel : Nat) : ∀ (m : Heap) (head : Option Nat) (l : List Nat),
    IsList m head l → l.length + 1 < fuel →
    ∃ m1 p1, merge_list fuel m head = .ok (m1, p1) ∧
      IsList m1 p1 (sort_spec (value_at m) l) ∧ SameNodes m m1 ∧
      ∀ a, a ∉ l → m1 a = m a := by
  induction fuel with
  | zero =>
    intro m head l _ hfuel
    omega
  | succ fuel ih =>
    intro m head l hl hfuel
    by_cases hlen : l.length < 2
    · -- at most one node: the chain is returned as it is
      have hsort : sort_spec (value_at m) l = l := sort_fuel_short _ _ l hlen
      rw [hsort]
      refine ⟨m, head, ?_, hl, sameNodes_refl m, fun _ _ => rfl⟩
      cases l with
      | nil =>
        rw [isList_nil] at hl
        simp [merge_list, hl]
      | cons h l =>
        have hnil : l = [] := List.length_eq_zero.mp (by simp at hlen; omega)
        subst hnil
        rw [isList_cons] at hl
        obtain ⟨hh, hn, hhn, hend⟩ := hl
        rw [isList_nil] at hend
        simp [merge_list, hh, hhn, hend]
    · -- at least two nodes
      have hnd := isList_nodup m _ _ hl
      obtain ⟨h, l0, rfl⟩ : ∃ h l0, l = h :: l0 := by
        cases l with
        | nil => simp at hlen
        | cons h l0 => exact ⟨h, l0, rfl⟩
      have hl0 := hl
      rw [isList_cons] at hl0
      obtain ⟨hh, hn, hhn, hrest⟩ := hl0
      subst hh
      have hnext : hn.next ≠ none := by
        intro hnone
        rw [hnone] at hrest
        have hhd := isList_head m l0 none hrest
        cases l0 with
        | nil => simp at hlen
        | cons b l0 => simp at hhd
      -- the walk stops on node number `l0.length / 2`
      have hk : l0.length / 2 < (h :: l0).length := by
        simp only [List.length_cons]
        omega
      have hsplit := split_loop_spec fuel m (some h) hn.next (h :: l0) l0 hl hrest hk
        (by simp only [List.length_cons] at hfuel; omega)
      obtain ⟨s, hs⟩ : ∃ s, (h :: l0)[l0.length / 2]? = some s :=
        ⟨(h :: l0)[l0.length / 2], List.getElem?_eq_getElem hk⟩
      rw [hs] at hsplit
      have hhalf : ((h :: l0).length + 1) / 2 = l0.length / 2 + 1 := by
        simp only [List.length_cons]
        omega
      have htake : (h :: l0).take (l0.length / 2 + 1) = (h :: l0).take (l0.length / 2) ++ [s] := by
        rw [List.take_succ, hs]
        rfl
      have hdecomp : h :: l0 = (h :: l0).take (l0.length / 2) ++
          s :: (h :: l0).drop (l0.length / 2 + 1) := by
        have := List.take_append_drop (l0.length / 2 + 1) (h :: l0)
        rw [htake, List.append_assoc] at this
        exact this.symm
      obtain ⟨sn, hsn⟩ := isList_live m _ _ hl s (List.getElem?_mem hs)
      have hl1 := hl
      rw [hdecomp] at hl1
      obtain ⟨hleft, hright⟩ := isList_cut m _ _ _ s sn hl1 hsn
      rw [← htake] at hleft
      -- names for the two halves
      generalize hL : (h :: l0).take (l0.length / 2 + 1) = left at hleft htake
      generalize hR : (h :: l0).drop (l0.length / 2 + 1) = right at hright hdecomp
      have hLR : h :: l0 = left ++ right := by
        rw [← hL, ← hR, List.take_append_drop]
      have hndLR : (left ++ right).Nodup := hLR ▸ hnd
      have hdisj : ∀ a ∈ left, a ∉ right := fun a ha hb =>
        (List.nodup_append.mp hndLR).2.2 ha hb
      have hLlen : left.length = l0.length / 2 + 1 := by
        rw [← hL, List.length_take]
        simp only [List.length_cons]
        omega
      have hRlen : right.length = l0.length - l0.length / 2 := by
        rw [← hR, List.length_drop]
        simp only [List.length_cons]
        omega
      have hlen2 : (h :: l0).length = l0.length + 1 := by simp
      have hsame0 : SameNodes m (store m s { sn with next := none }) :=
        sameNodes_store m s sn none hsn
      -- the left half is sorted
      obtain ⟨m2, pl, hrun2, hchain2, hsame2, hout2⟩ :=
        ih (store m s { sn with next := none }) (some h) left hleft
          (by rw [hLlen]; rw [hlen2] at hfuel hlen; omega)
      rw [value_at_sameNodes m _ hsame0] at hchain2
      have hright2 : IsList m2 sn.next right :=
        isList_frame _ m2 right _ (fun a ha => hout2 a (fun hmem => hdisj a hmem ha)) hright
      -- the right half is sorted
      obtain ⟨m3, pr, hrun3, hchain3, hsame3, hout3⟩ :=
        ih m2 sn.next right hright2 (by rw [hRlen]; rw [hlen2] at hfuel hlen; omega)
      have hsame02 : SameNodes m m2 := sameNodes_trans _ _ _ hsame0 hsame2
      rw [value_at_sameNodes m m2 hsame02] at hchain3
      have hpermL := sort_spec_perm (value_at m) left
      have hpermR := sort_spec_perm (value_at m) right
      have hchain2b : IsList m3 pl (sort_spec (value_at m) left) :=
        isList_frame m2 m3 _ _
          (fun a ha => hout3 a (fun hmem => hdisj a (hpermL.mem_iff.mp ha) hmem)) hchain2
      -- the two sorted halves are merged
      have hsame03 : SameNodes m m3 := sameNodes_trans _ _ _ hsame02 hsame3
      obtain ⟨m4, d4, hrun4, hchain4, hsame4, hout4, _⟩ :=
        merge_loop_spec fuel m3 none .dummy pl pr _ _ hchain2b hchain3
          (fun a ha hb => hdisj a (hpermL.mem_iff.mp ha) (hpermR.mem_iff.mp hb))
          (fun c hc => by cases hc)
          (by
            rw [hpermL.length_eq, hpermR.length_eq, hLlen, hRlen]
            rw [hlen2] at hfuel
            omega)
      rw [value_at_sameNodes m m3 hsame03] at hchain4
      refine ⟨m4, d4, ?_, ?_, sameNodes_trans _ _ _ hsame03 hsame4, ?_⟩
      · simp only [merge_list, hhn, hnext, if_false, hsplit, hsn, hrun2, hrun3, merge]
        exact hrun4
      · have hunfold : sort_spec (value_at m) (h :: l0) =
            merge_spec (value_at m) (sort_spec (value_at m) left)
              (sort_spec (value_at m) right) := by
          show sort_fuel _ (l0.length + 1) (h :: l0) = _
          rw [sort_fuel_succ _ _ _ hlen, hhalf, hL, hR,
            sort_spec_eq _ _ left (by rw [hLlen]; omega),
            sort_spec_eq _ _ right (by rw [hRlen]; omega)]
        rw [hunfold]
        exact hchain4
      · intro a ha
        rw [hLR] at ha
        have haL : a ∉ left := fun hmem => ha (List.mem_append_left _ hmem)
        have haR : a ∉ right := fun hmem => ha (List.mem_append_right _ hmem)
        have has : a ≠ s := by
          intro has
          apply haL
          rw [has, htake]
          exact List.mem_append_right _ (List.mem_singleton_self s)
        rw [hout4 a (fun hmem => haL (hpermL.mem_iff.mp hmem))
          (fun hmem => haR (hpermR.mem_iff.mp hmem)) (by simp),
          hout3 a haR, hout2 a haL, store_other m s a _ has]

/-! ## Sorting the queue -/

theorem tail_walk_spec (fuel : Nat) : ∀ (m : Heap) (p : Option Nat) (l : List Nat),
    IsList m p l → l.length < fuel → tail_walk fuel m p = .ok l.getLast? := by
  induction fuel with
  | zero =>
    intro m p l _ hfuel
    omega
  | succ fuel ih =>
    intro m p l hl hfuel
    cases l with
    | nil =>
      rw [isList_nil] at hl
      simp [tail_walk, hl]
    | cons c l =>
      rw [isList_cons] at hl
      obtain ⟨hp, n, hn, hrest⟩ := hl
      cases l with
      | nil =>
        rw [isList_nil] at hrest
        simp [tail_walk, hp, hn, hrest]
      | cons c1 l =>
        have hnext := isList_head m _ _ hrest
        simp only [List.head?_cons] at hnext
        rw [hnext] at hrest
        simp only [tail_walk, hp, hn, hnext, List.getLast?_cons_cons]
        exact ih m (some c1) (c1 :: l) hrest (by simp at hfuel ⊢; omega)

theorem q_sort_spec (m : Heap) (q : queue_t) (l : List Nat) (fuel : Nat)
    (hl : IsList m q.head l) (hfuel : l.length + 1 < fuel) :
    ∃ m1 q1, q_sort fuel m (some q) = .ok (m1, some q1) ∧
      IsList m1 q1.head (sort_spec (value_at m) l) ∧
      (l ≠ [] → q1.tail = (sort_spec (value_at m) l).getLast?) ∧
      q1.size = q.size ∧ SameNodes m m1 ∧ ∀ a, a ∉ l → m1 a = m a := by
  cases l with
  | nil =>
    rw [isList_nil] at hl
    refine ⟨m, q, by simp [q_sort, hl], ?_, fun h => absurd rfl h, rfl, sameNodes_refl m,
      fun _ _ => rfl⟩
    rw [hl]
    exact (isList_nil m none).mpr rfl
  | cons c l =>
    have hhead : q.head ≠ none := by
      rw [isList_head m _ _ hl]
      simp
    obtain ⟨m1, p1, hrun, hchain, hsame, hout⟩ := merge_list_spec fuel m q.head _ hl hfuel
    have hwalk := tail_walk_spec fuel m1 p1 _ hchain
      (by rw [(sort_spec_perm _ _).length_eq]; omega)
    exact ⟨m1, { q with head := p1, tail := (sort_spec (value_at m) (c :: l)).getLast? },
      by simp [q_sort, hhead, hrun, hwalk], hchain, fun _ => rfl, rfl, hsame, hout⟩

/-- C1: on a queue whose chain is a finite list of nodes, with fuel for the loops and the
recursion, `q_sort` returns, and in the chain of the new head every value is at most the
value that follows it, in the order of `strcmp`. -/
theorem q_sort_sorted (m : Heap) (q : queue_t) (l : List Nat) (fuel : Nat)
    (hl : IsList m q.head l) (hfuel : l.length + 1 < fuel) :
    ∃ m1 q1 l1, q_sort fuel m (some q) = .ok (m1, some q1) ∧ IsList m1 q1.head l1 ∧
      List.Chain' str_le (l1.map (value_at m1)) := by
  obtain ⟨m1, q1, hrun, hchain, _, _, hsame, _⟩ := q_sort_spec m q l fuel hl hfuel
  refine ⟨m1, q1, _, hrun, hchain, ?_⟩
  rw [List.chain'_map, value_at_sameNodes m m1 hsame]
  exact sort_spec_sorted (value_at m) l

/-- C1 at the scenario of the specification: the queue of "banana", "apple",
"cherry". -/
theorem q_sort_sorted_witness :
    IsList heap_fruit queue_fruit.head [1, 2, 3] ∧ ([1, 2, 3] : List Nat).length + 1 < 5 ∧
    ∃ m1 q1 l1, q_sort 5 heap_fruit (some queue_fruit) = .ok (m1, some q1) ∧
      IsList m1 q1.head l1 ∧ List.Chain' str_le (l1.map (value_at m1)) :=
  ⟨by decide, by decide,
    q_sort_sorted heap_fruit queue_fruit [1, 2, 3] 5 (by decide) (by decide)⟩

/-- C2: `q_sort` leaves an absent queue alone; on a queue whose chain is a finite list
of nodes `l`, with fuel for the loops and the recursion, it returns, the chain of the new
head is a permutation of `l` (no node lost, none twice), the heap has the same live nodes
holding the same strings, nodes outside the chain are untouched, so the values of the
chain are a permutation of those before, and `size` is unchanged. -/
theorem q_sort_relinks (m : Heap) (q : queue_t) (l : List Nat) (fuel : Nat)
    (hl : IsList m q.head l) (hfuel : l.length + 1 < fuel) :
    q_sort fuel m none = .ok (m, none) ∧
    ∃ m1 q1 l1, q_sort fuel m (some q) = .ok (m1, some q1) ∧ IsList m1 q1.head l1 ∧
      l1.Perm l ∧ l1.Nodup ∧ SameNodes m m1 ∧ (∀ a, a ∉ l → m1 a = m a) ∧
      (l1.map (value_at m1)).Perm (l.map (value_at m)) ∧ q1.size = q.size := by
  obtain ⟨m1, q1, hrun, hchain, _, hsize, hsame, hout⟩ := q_sort_spec m q l fuel hl hfuel
  refine ⟨rfl, m1, q1, _, hrun, hchain, sort_spec_perm _ l, isList_nodup m1 _ _ hchain, hsame,
    hout, ?_, hsize⟩
  rw [value_at_sameNodes m m1 hsame]
  exact (sort_spec_perm _ l).map _

/-- C2 at the scenario of the specification: the queue of "banana", "apple",
"cherry". -/
theorem q_sort_relinks_witness :
    IsList heap_fruit queue_fruit.head [1, 2, 3] ∧ ([1, 2, 3] : List Nat).length + 1 < 5 ∧
    q_sort 5 heap_fruit none = .ok (heap_fruit, none) ∧
    ∃ m1 q1 l1, q_sort 5 heap_fruit (some queue_fruit) = .ok (m1, some q1) ∧
      IsList m1 q1.head l1 ∧
      l1.Perm [1, 2, 3] ∧ l1.Nodup ∧ SameNodes heap_fruit m1 ∧
      (∀ a, a ∉ ([1, 2, 3] : List Nat) → m1 a = heap_fruit a) ∧
      (l1.map (value_at m1)).Perm (([1, 2, 3] : List Nat).map (value_at heap_fruit)) ∧
      q1.size = queue_fruit.size :=
  ⟨by decide, by decide,
    q_sort_relinks heap_fruit queue_fruit [1, 2, 3] 5 (by decide) (by decide)⟩

/-! ## The scenario of the specification, and the write bound for a non-zero capacity -/

/-- The scenario of the specification on the queue of "banana", "apple", "cherry":
sorting gives apple, banana, cherry; reversing gives cherry, banana, apple; two removals
yield "cherry" then "banana" and leave one element. -/
theorem scenario_fruit :
    ∃ m1 q1 m2 q2 m3 q3 m4 q4,
      q_sort 5 heap_fruit (some queue_fruit) = .ok (m1, some q1) ∧
      IsList m1 q1.head [2, 1, 3] ∧ q1.tail = some 3 ∧
      q_reverse 5 m1 (some q1) = .ok (m2, some q2) ∧
      IsList m2 q2.head [3, 1, 2] ∧ q2.tail = some 2 ∧
      q_remove_head m2 (some q2) true 16 = .ok (true, m3, some q3, some (cherry ++ [0])) ∧
      q_remove_head m3 (some q3) true 16 = .ok (true, m4, some q4, some (banana ++ [0])) ∧
      IsList m4 q4.head [2] ∧ q4.size = 1 :=
  ⟨_, _, _, _, _, _, _, _, rfl, by decide, rfl, rfl, by decide, rfl, rfl, rfl, by decide, rfl⟩

/-- With a declared capacity of at least 1, what `q_remove_head` stores through `sp`
fits the capacity, terminator included. -/
theorem q_remove_head_bounded (m : Heap) (q : Option queue_t) (c : Nat) (b : Bool)
    (m1 : Heap) (q1 : Option queue_t) (w : List Nat) (h1 : 1 ≤ c) (h2 : c < SIZE_MOD)
    (hrun : q_remove_head m q true c = .ok (b, m1, q1, some w)) : w.length ≤ c := by
  cases q with
  | none => simp [q_remove_head] at hrun
  | some q0 =>
    cases hh : q0.head with
    | none => simp [q_remove_head, hh] at hrun
    | some h =>
      cases hn : m h with
      | none => simp [q_remove_head, hh, hn] at hrun
      | some n =>
        simp only [q_remove_head, hh, hn, bufsize_minus_one_pos c h1 h2, strlen, memcpy,
          if_true] at hrun
        by_cases hlen : n.value.length > c - 1
        · rw [if_pos hlen] at hrun
          simp only [Except.ok.injEq, Prod.mk.injEq, Option.some.injEq] at hrun
          rw [← hrun.2.2.2]
          simp only [List.length_append, List.length_take, List.length_singleton]
          omega
        · rw [if_neg hlen] at hrun
          simp only [Except.ok.injEq, Prod.mk.injEq, Option.some.injEq] at hrun
          rw [← hrun.2.2.2]
          simp only [List.length_append, List.length_take, List.length_singleton]
          omega

/-! ## Failed insertions, the size, and the round trip -/

theorem release_fresh (m : Heap) (a : Nat) (h : m a = none) : release m a = m := by
  funext x
  by_cases hx : x = a
  · rw [hx, release_same, h]
  · exact release_other m a x hx

/-- C11: `q_insert_head` and `q_insert_tail` return false on an absent queue, whatever
the allocator would return, and return false when the node allocation or the string
allocation fails; in each of these cases the heap and the queue (head, tail, size) are
exactly as before the call, so that no new node is reachable. -/
theorem q_insert_fails_atomically (m : Heap) (q : Option queue_t) (s : List Nat)
    (node_alloc : Option Nat) (value_alloc : Bool)
    (hfail : q = none ∨ node_alloc = none ∨ value_alloc = false)
    (hfresh : ∀ a, node_alloc = some a → m a = none) :
    q_insert_head m none s node_alloc value_alloc = .ok (false, m, none) ∧
    q_insert_tail m none s node_alloc value_alloc = .ok (false, m, none) ∧
    q_insert_head m q s node_alloc value_alloc = .ok (false, m, q) ∧
    q_insert_tail m q s node_alloc value_alloc = .ok (false, m, q) := by
  refine ⟨rfl, rfl, ?_, ?_⟩
  · cases q with
    | none => rfl
    | some q0 =>
      cases node_alloc with
      | none => rfl
      | some a =>
        have hva : value_alloc = false := by
          rcases hfail with h | h | h
          · cases h
          · cases h
          · exact h
        simp [q_insert_head, hva, release_fresh m a (hfresh a rfl)]
  · cases q with
    | none => rfl
    | some q0 =>
      cases node_alloc with
      | none => rfl
      | some a =>
        have hva : value_alloc = false := by
          rcases hfail with h | h | h
          · cases h
          · cases h
          · exact h
        simp [q_insert_tail, hva, release_fresh m a (hfresh a rfl)]

/-- C11 at an example: the string allocation fails on the queue holding "hello". -/
theorem q_insert_fails_atomically_witness :
    ((some queue_hello = none ∨ (some 2 : Option Nat) = none ∨ false = false) ∧
      ∀ a, (some 2 : Option Nat) = some a → heap_hello a = none) ∧
    q_insert_head heap_hello none apple (some 2) false = .ok (false, heap_hello, none) ∧
    q_insert_tail heap_hello none apple (some 2) false = .ok (false, heap_hello, none) ∧
    q_insert_head heap_hello (some queue_hello) apple (some 2) false =
      .ok (false, heap_hello, some queue_hello) ∧
    q_insert_tail heap_hello (some queue_hello) apple (some 2) false =
      .ok (false, heap_hello, some queue_hello) :=
  have hfresh : ∀ a, (some 2 : Option Nat) = some a → heap_hello a = none := by
    intro a h
    cases h
    rfl
  ⟨⟨Or.inr (Or.inr rfl), hfresh⟩,
    q_insert_fails_atomically heap_hello (some queue_hello) apple (some 2) false
      (Or.inr (Or.inr rfl)) hfresh⟩

theorem isList_none (m : Heap) (l : List Nat) (h : IsList m none l) : l = [] := by
  cases l with
  | nil => rfl
  | cons a l =>
    have := ((isList_cons m none a l).mp h).1
    cases this

/-- C12: `q_size` returns 0 for an absent queue and for a queue whose head is `NULL`;
on a queue whose `size` counts the nodes of its chain `l` it returns the number of nodes
of `l`. -/
theorem q_size_counts (m : Heap) (q : queue_t) (l : List Nat)
    (hl : IsList m q.head l) (hsize : q.size = (l.length : Int)) :
    q_size none = 0 ∧ (q.head = none → q_size (some q) = 0) ∧
      (l = [] → q_size (some q) = 0) ∧ q_size (some q) = (l.length : Int) := by
  have h1 : q.head = none → q_size (some q) = 0 := fun h => by simp [q_size, h]
  have h2 : q_size (some q) = (l.length : Int) := by
    by_cases hh : q.head = none
    · rw [h1 hh]
      rw [hh] at hl
      rw [isList_none m l hl]
      rfl
    · simp [q_size, hh, hsize]
  refine ⟨rfl, h1, ?_, h2⟩
  intro hnil
  rw [h2, hnil]
  rfl

/-- C12 at an example: the queue of "banana", "apple", "cherry". -/
theorem q_size_counts_witness :
    IsList heap_fruit queue_fruit.head [1, 2, 3] ∧
    queue_fruit.size = (([1, 2, 3] : List Nat).length : Int) ∧
    q_size none = 0 ∧ (queue_fruit.head = none → q_size (some queue_fruit) = 0) ∧
      (([1, 2, 3] : List Nat) = [] → q_size (some queue_fruit) = 0) ∧
      q_size (some queue_fruit) = (([1, 2, 3] : List Nat).length : Int) :=
  ⟨by decide, by decide, q_size_counts heap_fruit queue_fruit [1, 2, 3] (by decide) (by decide)⟩

/-- C13 (the code at the failing input): on a new queue, insert "hello" at the head
(node at address 1) and remove it; `tail` still holds address 1, which is free again.
When `malloc` returns that address for the next node, `q_insert_tail` of "apple" writes
through the stale `tail` and returns true with `head` still `NULL`: no node is reachable
from `head`, and `size` is 1. -/
theorem size_invariant_broken_by_insert_tail :
    ∃ m1 q1 m2 q2 m3 q3,
      q_insert_head heap_empty (q_new true) hello (some 1) true = .ok (true, m1, some q1) ∧
      q_remove_head m1 (some q1) false 0 = .ok (true, m2, some q2, none) ∧
      m2 1 = none ∧
      q_insert_tail m2 (some q2) apple (some 1) true = .ok (true, m3, some q3) ∧
      IsList m3 q3.head [] ∧ q3.size = 1 :=
  ⟨_, _, _, _, _, _, rfl, rfl, rfl, rfl, by decide, rfl⟩

/-- C14: on any queue, when `malloc` returns a fresh address and the string is allocated,
`q_insert_head` of `s` followed by `q_remove_head` into a buffer of capacity
`c > strlen s` returns true twice, stores `s` and its terminator in the buffer, and
leaves the heap, `head` and `size` as before the insertion, hence the same chain. -/
theorem insert_remove_round_trip (m : Heap) (q : queue_t) (s : List Nat) (a c : Nat)
    (hfresh : m a = none) (hc : strlen s < c) (hc2 : c < SIZE_MOD) :
    ∃ m1 q1 m2 q2, q_insert_head m (some q) s (some a) true = .ok (true, m1, some q1) ∧
      q_remove_head m1 (some q1) true c = .ok (true, m2, some q2, some (s ++ [0])) ∧
      m2 = m ∧ q2.head = q.head ∧ q2.size = q.size ∧
      ∀ l, IsList m q.head l → IsList m2 q2.head l := by
  have hm2 : release (store m a { value := s, next := q.head }) a = m := by
    funext x
    by_cases hx : x = a
    · rw [hx, release_same, hfresh]
    · rw [release_other _ a x hx, store_other m a x _ hx]
  have hlen : ¬ s.length > c - 1 := by
    unfold strlen at hc
    omega
  have hrem : ∀ t : Option Nat,
      q_remove_head (store m a { value := s, next := q.head })
        (some { head := some a, tail := t, size := q.size + 1 }) true c =
      .ok (true, m, some { head := q.head, tail := t, size := q.size }, some (s ++ [0])) := by
    intro t
    simp [q_remove_head, store_same, bufsize_minus_one_pos c (by omega) hc2, strlen, memcpy,
      hlen, hm2]
  by_cases hq : q.size + 1 = 1
  · refine ⟨_, { head := some a, tail := some a, size := q.size + 1 }, m,
      { head := q.head, tail := some a, size := q.size }, ?_, hrem _, rfl, rfl, rfl,
      fun l hl => hl⟩
    simp [q_insert_head, hq, memcpy, strlen]
  · refine ⟨_, { head := some a, tail := q.tail, size := q.size + 1 }, m,
      { head := q.head, tail := q.tail, size := q.size }, ?_, hrem _, rfl, rfl, rfl,
      fun l hl => hl⟩
    simp [q_insert_head, hq, memcpy, strlen]

/-- C14 at an example: "apple" through the queue holding "hello", with a buffer of
capacity 6. -/
theorem insert_remove_round_trip_witness :
    heap_hello 2 = none ∧ strlen apple < 6 ∧ 6 < SIZE_MOD ∧
    ∃ m1 q1 m2 q2,
      q_insert_head heap_hello (some queue_hello) apple (some 2) true = .ok (true, m1, some q1) ∧
      q_remove_head m1 (some q1) true 6 = .ok (true, m2, some q2, some (apple ++ [0])) ∧
      m2 = heap_hello ∧ q2.head = queue_hello.head ∧ q2.size = queue_hello.size ∧
      ∀ l, IsList heap_hello queue_hello.head l → IsList m2 q2.head l :=
  ⟨by decide, by decide, by decide,
    insert_remove_round_trip heap_hello queue_hello apple 2 6 (by decide) (by decide)
      (by decide)⟩

/-! ## Reversing twice, and the tail after sorting -/

theorem isList_heap_eq (l : List Nat) : ∀ (m m2 : Heap) (p : Option Nat),
    IsList m p l → IsList m2 p l → SameNodes m m2 → ∀ a ∈ l, m2 a = m a := by
  induction l with
  | nil =>
    intro m m2 p _ _ _ a ha
    simp at ha
  | cons a0 l ih =>
    intro m m2 p h1 h2 hsame a ha
    rw [isList_cons] at h1 h2
    obtain ⟨_, n, hn, hrest⟩ := h1
    obtain ⟨_, n2, hn2, hrest2⟩ := h2
    have hnext : n2.next = n.next := by
      rw [isList_head m l _ hrest, isList_head m2 l _ hrest2]
    rcases List.mem_cons.mp ha with rfl | hmem
    · have hv := hsame a
      rw [hn, hn2] at hv
      simp only [Option.map_some', Option.some.injEq] at hv
      rw [hn, hn2]
      cases n
      cases n2
      simp_all
    · rw [hnext] at hrest2
      exact ih m m2 n.next hrest hrest2 hsame a hmem

/-- C15: on a well-formed queue, with fuel for the loop, `q_reverse` applied twice
returns twice, and the second call gives back the original queue (head, tail and size)
over the original heap, hence the original chain in the original order. -/
theorem q_reverse_involution (m : Heap) (q : queue_t) (l : List Nat) (fuel : Nat)
    (hwf : WellFormed m q l) (hfuel : l.length < fuel) :
    ∃ m1 q1 m2, q_reverse fuel m (some q) = .ok (m1, some q1) ∧
      q_reverse fuel m1 (some q1) = .ok (m2, some q) ∧ IsList m2 q.head l ∧ m2 = m := by
  obtain ⟨hl, _, htail⟩ := hwf
  by_cases hne : l = []
  · subst hne
    rw [isList_nil] at hl
    have hrun : q_reverse fuel m (some q) = .ok (m, some q) := by simp [q_reverse, hl]
    refine ⟨m, q, m, hrun, hrun, ?_, rfl⟩
    rw [hl]
    exact (isList_nil m none).mpr rfl
  · obtain ⟨m1, p1, hrun1, hchain1, hsame1, hout1⟩ :=
      reverse_loop_spec l m [] none q.head fuel hl ((isList_nil m none).mpr rfl)
        (fun _ _ => List.not_mem_nil _) hfuel
    rw [List.append_nil] at hchain1
    obtain ⟨m2, p2, hrun2, hchain2, hsame2, hout2⟩ :=
      reverse_loop_spec l.reverse m1 [] none p1 fuel hchain1 ((isList_nil m1 none).mpr rfl)
        (fun _ _ => List.not_mem_nil _) (by rw [List.length_reverse]; exact hfuel)
    rw [List.append_nil, List.reverse_reverse] at hchain2
    have hhead : q.head ≠ none := by
      rw [isList_head m l _ hl]
      cases l with
      | nil => exact absurd rfl hne
      | cons a l => simp
    have hp1 : p1 = q.tail := by
      rw [htail hne, isList_head m1 _ _ hchain1, List.head?_reverse]
    have hp1ne : p1 ≠ none := by
      rw [isList_head m1 _ _ hchain1, List.head?_reverse]
      cases hlast : l.getLast? with
      | none => exact absurd (List.getLast?_eq_none_iff.mp hlast) hne
      | some t => simp
    have hp2 : p2 = q.head := by
      rw [isList_head m2 _ _ hchain2, isList_head m _ _ hl]
    have hm2 : m2 = m := by
      funext a
      by_cases ha : a ∈ l
      · rw [hp2] at hchain2
        exact isList_heap_eq l m m2 q.head hl hchain2 (sameNodes_trans _ _ _ hsame1 hsame2) a ha
      · rw [hout2 a (fun h => ha (List.mem_reverse.mp h)), hout1 a ha]
    refine ⟨m1, { q with tail := q.head, head := p1 }, m2, ?_, ?_, ?_, hm2⟩
    · simp [q_reverse, hhead, hrun1]
    · simp only [q_reverse, hp1ne, if_false, hrun2]
      rw [hp2, hp1]
    · rw [← hp2]
      exact hchain2

/-- C15 at an example: the queue of "banana", "apple", "cherry". -/
theorem q_reverse_involution_witness :
    WellFormed heap_fruit queue_fruit [1, 2, 3] ∧ ([1, 2, 3] : List Nat).length < 4 ∧
    ∃ m1 q1 m2, q_reverse 4 heap_fruit (some queue_fruit) = .ok (m1, some q1) ∧
      q_reverse 4 m1 (some q1) = .ok (m2, some queue_fruit) ∧
      IsList m2 queue_fruit.head [1, 2, 3] ∧ m2 = heap_fruit :=
  ⟨⟨by decide, by decide, by decide⟩, by decide,
    q_reverse_involution heap_fruit queue_fruit [1, 2, 3] 4
      ⟨by decide, by decide, by decide⟩ (by decide)⟩

/-- C18: on a queue whose chain is a finite list of nodes and is not empty, whatever
`tail` held before, after `q_sort` the chain of `head` is a finite list `l1` whose first
node is `head` and whose last node is `tail`, the `next` of `tail` is empty, `head` and
`tail` are the same node when the chain has one node, and the queue is well formed when
`size` counted the chain before. -/
theorem q_sort_sets_tail (m : Heap) (q : queue_t) (l : List Nat) (fuel : Nat)
    (hl : IsList m q.head l) (hne : l ≠ []) (hfuel : l.length + 1 < fuel) :
    ∃ m1 q1 l1, q_sort fuel m (some q) = .ok (m1, some q1) ∧ IsList m1 q1.head l1 ∧
      l1 ≠ [] ∧ q1.head = l1.head? ∧ q1.tail = l1.getLast? ∧
      (∀ t, q1.tail = some t → ∃ n, m1 t = some n ∧ n.next = none) ∧
      (l1.length = 1 → q1.head = q1.tail) ∧
      (q.size = (l.length : Int) → WellFormed m1 q1 l1) := by
  obtain ⟨m1, q1, hrun, hchain, htail, hsize, _, _⟩ := q_sort_spec m q l fuel hl hfuel
  have hperm := sort_spec_perm (value_at m) l
  have hne1 : sort_spec (value_at m) l ≠ [] := fun h => hne (by
    have := hperm.length_eq
    rw [h] at this
    exact List.length_eq_zero.mp this.symm)
  refine ⟨m1, q1, _, hrun, hchain, hne1, isList_head m1 _ _ hchain, htail hne, ?_, ?_, ?_⟩
  · intro t ht
    rw [htail hne] at ht
    rcases List.eq_nil_or_concat (sort_spec (value_at m) l) with h | ⟨l0, t0, h⟩
    · exact absurd h hne1
    · rw [h, List.concat_eq_append] at ht hchain
      have ht0 : t0 = t := by simpa using ht
      rw [← ht0]
      exact isList_last_next m1 l0 t0 _ hchain
  · intro hone
    rw [isList_head m1 _ _ hchain, htail hne]
    match hs : sort_spec (value_at m) l, hone with
    | [x], _ => rfl
  · intro hq
    refine ⟨hchain, ?_, fun _ => htail hne⟩
    rw [hsize, hq, hperm.length_eq]

/-- C18 at an example: the queue of "banana", "apple", "cherry" with a wrong `tail`. -/
theorem q_sort_sets_tail_witness :
    IsList heap_fruit (some 1) [1, 2, 3] ∧ ([1, 2, 3] : List Nat) ≠ [] ∧
    ([1, 2, 3] : List Nat).length + 1 < 5 ∧
    ∃ m1 q1 l1, q_sort 5 heap_fruit (some { head := some 1, tail := none, size := 3 }) =
        .ok (m1, some q1) ∧ IsList m1 q1.head l1 ∧
      l1 ≠ [] ∧ q1.head = l1.head? ∧ q1.tail = l1.getLast? ∧
      (∀ t, q1.tail = some t → ∃ n, m1 t = some n ∧ n.next = none) ∧
      (l1.length = 1 → q1.head = q1.tail) ∧
      ((3 : Int) = (([1, 2, 3] : List Nat).length : Int) → WellFormed m1 q1 l1) :=
  ⟨by decide, by decide, by decide,
    q_sort_sets_tail heap_fruit { head := some 1, tail := none, size := 3 } [1, 2, 3] 5
      (by decide) (by decide) (by decide)⟩

/-! ## The split of `merge_list` -/

theorem split_cut_spec (m : Heap) (h : Nat) (hn : list_ele_t) (l : List Nat) (fuel : Nat)
    (hl : IsList m (some h) l) (hhn : m h = some hn) (hlen : 2 ≤ l.length)
    (hfuel : l.length < fuel) :
    ∃ s sn, split_loop fuel m (some h) hn.next = .ok (some s) ∧ m s = some sn ∧
      l[(l.length - 1) / 2]? = some s ∧
      IsList (store m s { sn with next := none }) (some h) (l.take ((l.length + 1) / 2)) ∧
      IsList (store m s { sn with next := none }) sn.next (l.drop ((l.length + 1) / 2)) := by
  obtain ⟨h0, l0, rfl⟩ : ∃ h0 l0, l = h0 :: l0 := by
    cases l with
    | nil => simp at hlen
    | cons h0 l0 => exact ⟨h0, l0, rfl⟩
  have hl0 := hl
  rw [isList_cons] at hl0
  obtain ⟨hh, n, hn0, hrest⟩ := hl0
  cases hh
  rw [hhn] at hn0
  cases hn0
  have hlen2 : (h :: l0).length = l0.length + 1 := by simp
  have hk : l0.length / 2 < (h :: l0).length := by
    rw [hlen2]
    omega
  have hsplit := split_loop_spec fuel m (some h) hn.next (h :: l0) l0 hl hrest hk
    (by rw [hlen2] at hfuel; omega)
  obtain ⟨s, hs⟩ : ∃ s, (h :: l0)[l0.length / 2]? = some s :=
    ⟨(h :: l0)[l0.length / 2], List.getElem?_eq_getElem hk⟩
  rw [hs] at hsplit
  have hhalf : ((h :: l0).length + 1) / 2 = l0.length / 2 + 1 := by
    rw [hlen2]
    omega
  have hidx : ((h :: l0).length - 1) / 2 = l0.length / 2 := by
    rw [hlen2]
    simp
  have htake : (h :: l0).take (l0.length / 2 + 1) = (h :: l0).take (l0.length / 2) ++ [s] := by
    rw [List.take_succ, hs]
    rfl
  have hdecomp : h :: l0 = (h :: l0).take (l0.length / 2) ++
      s :: (h :: l0).drop (l0.length / 2 + 1) := by
    have := List.take_append_drop (l0.length / 2 + 1) (h :: l0)
    rw [htake, List.append_assoc] at this
    exact this.symm
  obtain ⟨sn, hsn⟩ := isList_live m _ _ hl s (List.getElem?_mem hs)
  have hl1 := hl
  rw [hdecomp] at hl1
  obtain ⟨hleft, hright⟩ := isList_cut m _ _ _ s sn hl1 hsn
  rw [← htake] at hleft
  refine ⟨s, sn, hsplit, hsn, ?_, ?_, ?_⟩
  · rw [hidx]
    exact hs
  · rw [hhalf]
    exact hleft
  · rw [hhalf]
    exact hright

/-- C19: on a finite chain `l` of `n` nodes starting at `head`, with fuel for the loops
and the recursion, `merge_list` returns; and when `n ≥ 2` the fast/slow walk stops with
`slow` on the node of index `(n - 1) / 2`, and cutting the chain after it leaves the first
`(n + 1) / 2` nodes of `l` from `head` and the remaining `n / 2` nodes from the old
successor of `slow`, in their order, both parts being non-empty and shorter than `n`. -/
theorem merge_list_splits_and_returns (m : Heap) (head : Option Nat) (l : List Nat)
    (fuel : Nat) (hl : IsList m head l) (hfuel : l.length + 1 < fuel) :
    (∃ m1 p1, merge_list fuel m head = .ok (m1, p1) ∧
      IsList m1 p1 (sort_spec (value_at m) l)) ∧
    (2 ≤ l.length →
      (∃ h hn s sn, head = some h ∧ m h = some hn ∧
        split_loop fuel m head hn.next = .ok (some s) ∧ m s = some sn ∧
        l[(l.length - 1) / 2]? = some s ∧
        IsList (store m s { sn with next := none }) head (l.take ((l.length + 1) / 2)) ∧
        IsList (store m s { sn with next := none }) sn.next (l.drop ((l.length + 1) / 2))) ∧
      l.take ((l.length + 1) / 2) ++ l.drop ((l.length + 1) / 2) = l ∧
      (l.take ((l.length + 1) / 2)).length = (l.length + 1) / 2 ∧
      (l.drop ((l.length + 1) / 2)).length = l.length / 2 ∧
      0 < (l.length + 1) / 2 ∧ (l.length + 1) / 2 < l.length ∧
      0 < l.length / 2 ∧ l.length / 2 < l.length) := by
  obtain ⟨m1, p1, hrun, hchain, _, _⟩ := merge_list_spec fuel m head l hl hfuel
  refine ⟨⟨m1, p1, hrun, hchain⟩, fun hlen => ?_⟩
  obtain ⟨h, l0, rfl⟩ : ∃ h l0, l = h :: l0 := by
    cases l with
    | nil => simp at hlen
    | cons h l0 => exact ⟨h, l0, rfl⟩
  have hl0 := hl
  rw [isList_cons] at hl0
  obtain ⟨hh, hn, hhn, _⟩ := hl0
  subst hh
  obtain ⟨s, sn, hsplit, hsn, hidx, hleft, hright⟩ :=
    split_cut_spec m h hn (h :: l0) fuel hl hhn hlen (by omega)
  refine ⟨⟨h, hn, s, sn, rfl, hhn, hsplit, hsn, hidx, hleft, hright⟩,
    List.take_append_drop _ _, ?_, ?_, ?_, ?_, ?_, ?_⟩
  · rw [List.length_take]
    omega
  · rw [List.length_drop]
    omega
  · omega
  · omega
  · omega
  · omega

/-- C19 at an example: the chain of "banana", "apple", "cherry" is split into the nodes
1, 2 and the node 3. -/
theorem merge_list_splits_and_returns_witness :
    IsList heap_fruit (some 1) [1, 2, 3] ∧ ([1, 2, 3] : List Nat).length + 1 < 5 ∧
    (∃ m1 p1, merge_list 5 heap_fruit (some 1) = .ok (m1, p1) ∧
      IsList m1 p1 (sort_spec (value_at heap_fruit) [1, 2, 3])) ∧
    (2 ≤ ([1, 2, 3] : List Nat).length →
      (∃ h hn s sn, (some 1 : Option Nat) = some h ∧ heap_fruit h = some hn ∧
        split_loop 5 heap_fruit (some 1) hn.next = .ok (some s) ∧ heap_fruit s = some sn ∧
        ([1, 2, 3] : List Nat)[(([1, 2, 3] : List Nat).length - 1) / 2]? = some s ∧
        IsList (store heap_fruit s { sn with next := none }) (some 1)
          (([1, 2, 3] : List Nat).take ((([1, 2, 3] : List Nat).length + 1) / 2)) ∧
        IsList (store heap_fruit s { sn with next := none }) sn.next
          (([1, 2, 3] : List Nat).drop ((([1, 2, 3] : List Nat).length + 1) / 2))) ∧
      ([1, 2, 3] : List Nat).take ((([1, 2, 3] : List Nat).length + 1) / 2) ++
        ([1, 2, 3] : List Nat).drop ((([1, 2, 3] : List Nat).length + 1) / 2) = [1, 2, 3] ∧
      (([1, 2, 3] : List Nat).take ((([1, 2, 3] : List Nat).length + 1) / 2)).length =
        (([1, 2, 3] : List Nat).length + 1) / 2 ∧
      (([1, 2, 3] : List Nat).drop ((([1, 2, 3] : List Nat).length + 1) / 2)).length =
        ([1, 2, 3] : List Nat).length / 2 ∧
      0 < (([1, 2, 3] : List Nat).length + 1) / 2 ∧
      (([1, 2, 3] : List Nat).length + 1) / 2 < ([1, 2, 3] : List Nat).length ∧
      0 < ([1, 2, 3] : List Nat).length / 2 ∧
      ([1, 2, 3] : List Nat).length / 2 < ([1, 2, 3] : List Nat).length) :=
  ⟨by decide, by decide,
    merge_list_splits_and_returns heap_fruit (some 1) [1, 2, 3] 5 (by decide) (by decide)⟩

/-! ## Ties in `merge` -/

/-- C17 (counterexample): the one-node chains at 1 and 2 of `heap_tie` hold equal
strings; `merge` with the chain of 1 on the left returns the chain 2, 1: the front node
of the right chain is emitted first, and node 1 does not come before node 2. -/
theorem merge_tie_counterexample :
    IsList heap_tie (some 1) [1] ∧ IsList heap_tie (some 2) [2] ∧
    strcmp (value_at heap_tie 1) (value_at heap_tie 2) = 0 ∧
    ∃ m1, merge 3 heap_tie (some 1) (some 2) = .ok (m1, some 2) ∧
      IsList m1 (some 2) [2, 1] ∧ ¬ List.Sublist [1, 2] [2, 1] :=
  ⟨by decide, by decide, by decide, _, rfl, by decide, by decide⟩

/-- C17 (amended): `merge` breaks ties in favour of the right chain. For two disjoint
finite chains with front nodes `a` (left) and `b` (right) whose values compare equal, with
fuel for the loop, `merge` returns a chain that starts with `b`, the front node of the
right chain, and `a` comes after it. -/
theorem merge_tie_right_first (m : Heap) (left right : Option Nat) (a b : Nat)
    (l1 l2 : List Nat) (fuel : Nat)
    (h1 : IsList m left (a :: l1)) (h2 : IsList m right (b :: l2))
    (hdis : ∀ x ∈ a :: l1, x ∉ b :: l2)
    (htie : strcmp (value_at m a) (value_at m b) = 0)
    (hfuel : (a :: l1).length + (b :: l2).length < fuel) :
    ∃ m1 rest, merge fuel m left right = .ok (m1, some b) ∧ IsList m1 (some b) (b :: rest) ∧
      a ∈ rest ∧ List.Sublist [b, a] (b :: rest) ∧
      b :: rest = merge_spec (value_at m) (a :: l1) (b :: l2) := by
  obtain ⟨m1, d1, hrun, hchain, _, _, _⟩ :=
    merge_loop_spec fuel m none .dummy left right (a :: l1) (b :: l2) h1 h2 hdis
      (fun c hc => by cases hc) hfuel
  have hnot : ¬ strcmp (value_at m a) (value_at m b) < 0 := by omega
  have hspec : merge_spec (value_at m) (a :: l1) (b :: l2) =
      b :: merge_spec (value_at m) (a :: l1) l2 := by
    rw [merge_spec_cons, if_neg hnot]
  rw [hspec] at hchain
  have hd1 : d1 = some b := by
    have := isList_head m1 _ _ hchain
    simpa [next_of] using this
  have hmem : a ∈ merge_spec (value_at m) (a :: l1) l2 :=
    (merge_spec_perm (value_at m) (a :: l1) l2).mem_iff.mpr
      (List.mem_append_left _ (List.mem_cons_self _ _))
  refine ⟨m1, merge_spec (value_at m) (a :: l1) l2, ?_, ?_, hmem, ?_, hspec.symm⟩
  · rw [← hd1]
    exact hrun
  · rw [← hd1]
    exact hchain
  · exact List.cons_sublist_cons.mpr (List.singleton_sublist.mpr hmem)

/-- C17 (amended) at an example: the two one-node chains of `heap_tie`. -/
theorem merge_tie_right_first_witness :
    IsList heap_tie (some 1) [1] ∧ IsList heap_tie (some 2) [2] ∧
    (∀ x ∈ ([1] : List Nat), x ∉ ([2] : List Nat)) ∧
    strcmp (value_at heap_tie 1) (value_at heap_tie 2) = 0 ∧
    ([1] : List Nat).length + ([2] : List Nat).length < 3 ∧
    ∃ m1 rest, merge 3 heap_tie (some 1) (some 2) = .ok (m1, some 2) ∧
      IsList m1 (some 2) (2 :: rest) ∧
      1 ∈ rest ∧ List.Sublist [2, 1] (2 :: rest) ∧
      2 :: rest = merge_spec (value_at heap_tie) [1] [2] :=
  ⟨by decide, by decide, by decide, by decide, by decide,
    merge_tie_right_first heap_tie (some 1) (some 2) 1 2 [] [] 3 (by decide) (by decide)
      (by decide) (by decide) (by decide)⟩

/-! ## The order of `strcmp` on C strings -/

theorem strcmp_self (s : List Nat) : strcmp s s = 0 := by
  induction s with
  | nil => rfl
  | cons a s ih => simp [strcmp, ih]

theorem strcmp_neg_swap (s : List Nat) : ∀ t, strcmp s t < 0 → 0 < strcmp t s := by
  induction s with
  | nil =>
    intro t h
    cases t with
    | nil => simp [strcmp] at h
    | cons b t =>
      simp only [strcmp] at h ⊢
      omega
  | cons a s ih =>
    intro t h
    cases t with
    | nil =>
      simp only [strcmp] at h
      omega
    | cons b t =>
      simp only [strcmp] at h ⊢
      by_cases hab : a = b
      · subst hab
        simp only [if_true] at h ⊢
        exact ih t h
      · have hba : ¬ b = a := fun h => hab h.symm
        rw [if_neg hab] at h
        rw [if_neg hba]
        omega

theorem is_cstring_cons (a : Nat) (s : List Nat) (h : is_cstring (a :: s)) :
    a ≠ 0 ∧ is_cstring s :=
  ⟨h a (List.mem_cons_self _ _), fun b hb => h b (List.mem_cons_of_mem _ hb)⟩

theorem strcmp_eq_zero (s : List Nat) : ∀ t, is_cstring s → is_cstring t →
    strcmp s t = 0 → s = t := by
  induction s with
  | nil =>
    intro t _ ht h
    cases t with
    | nil => rfl
    | cons b t =>
      simp only [strcmp] at h
      have := (is_cstring_cons b t ht).1
      omega
  | cons a s ih =>
    intro t hs ht h
    have hs1 := is_cstring_cons a s hs
    cases t with
    | nil =>
      simp only [strcmp] at h
      have := hs1.1
      omega
    | cons b t =>
      have ht1 := is_cstring_cons b t ht
      simp only [strcmp] at h
      by_cases hab : a = b
      · subst hab
        simp only [if_true] at h
        rw [ih t hs1.2 ht1.2 h]
      · rw [if_neg hab] at h
        omega

theorem str_le_trans (s : List Nat) : ∀ t u, is_cstring s → is_cstring t →
    str_le s t → str_le t u → str_le s u := by
  unfold str_le
  induction s with
  | nil =>
    intro t u _ _ _ _
    cases u with
    | nil => simp [strcmp]
    | cons c u =>
      simp only [strcmp]
      omega
  | cons a s ih =>
    intro t u hs ht h1 h2
    have hs1 := is_cstring_cons a s hs
    cases t with
    | nil =>
      simp only [strcmp] at h1
      have := hs1.1
      omega
    | cons b t =>
      have ht1 := is_cstring_cons b t ht
      cases u with
      | nil =>
        simp only [strcmp] at h2
        have := ht1.1
        omega
      | cons c u =>
        simp only [strcmp] at h1 h2 ⊢
        by_cases hab : a = b
        · subst hab
          simp only [if_true] at h1
          by_cases hac : a = c
          · subst hac
            simp only [if_true] at h2 ⊢
            exact ih t u hs1.2 ht1.2 h1 h2
          · rw [if_neg hac] at h2 ⊢
            exact h2
        · rw [if_neg hab] at h1
          by_cases hbc : b = c
          · subst hbc
            rw [if_neg hab]
            exact h1
          · rw [if_neg hbc] at h2
            have hac : ¬ a = c := by omega
            rw [if_neg hac]
            omega

theorem cstr_le_trans (s t u : List Nat) (h1 : cstr_le s t) (h2 : cstr_le t u) :
    cstr_le s u :=
  ⟨str_le_trans s t u h1.2.1 h1.2.2 h1.1 h2.1, h1.2.1, h2.2.2⟩

theorem cstr_le_antisymm (s t : List Nat) (h1 : cstr_le s t) (h2 : cstr_le t s) : s = t := by
  apply strcmp_eq_zero s t h1.2.1 h1.2.2
  have ha : strcmp s t ≤ 0 := h1.1
  have hb : strcmp t s ≤ 0 := h2.1
  by_contra hne
  have hlt : strcmp s t < 0 := by omega
  have := strcmp_neg_swap s t hlt
  omega

theorem chain_cstr_le (vs : List (List Nat)) (h : List.Chain' str_le vs)
    (hstr : ∀ s ∈ vs, is_cstring s) : List.Pairwise cstr_le vs := by
  haveI : IsTrans (List Nat) cstr_le := ⟨cstr_le_trans⟩
  rw [← List.chain'_iff_pairwise]
  rw [List.Chain'.iff_mem] at h
  exact h.imp (fun s t hst => ⟨hst.2.2, hstr s hst.1, hstr t hst.2.1⟩)

/-! ## Sorting a sorted chain -/

theorem sort_spec_sorted_values (v : Nat → List Nat) (l : List Nat)
    (hstr : ∀ x ∈ l, is_cstring (v x))
    (hsorted : List.Chain' str_le (l.map v)) :
    (sort_spec v l).map v = l.map v := by
  haveI : IsAntisymm (List Nat) cstr_le := ⟨cstr_le_antisymm⟩
  have hperm := sort_spec_perm v l
  have h1 : List.Chain' str_le ((sort_spec v l).map v) := by
    rw [List.chain'_map]
    exact sort_spec_sorted v l
  have hstr1 : ∀ s ∈ (sort_spec v l).map v, is_cstring s := by
    intro s hs
    obtain ⟨x, hx, rfl⟩ := List.mem_map.mp hs
    exact hstr x (hperm.mem_iff.mp hx)
  have hstr2 : ∀ s ∈ l.map v, is_cstring s := by
    intro s hs
    obtain ⟨x, hx, rfl⟩ := List.mem_map.mp hs
    exact hstr x hx
  exact List.eq_of_perm_of_sorted (hperm.map v) (chain_cstr_le _ h1 hstr1)
    (chain_cstr_le _ hsorted hstr2)

theorem q_sort_keeps_sorted (m : Heap) (q : queue_t) (l : List Nat) (fuel : Nat)
    (hl : IsList m q.head l) (hstr : ∀ x ∈ l, is_cstring (value_at m x))
    (hfuel : l.length + 1 < fuel) (hsorted : List.Chain' str_le (l.map (value_at m))) :
    ∃ m1 q1 l1, q_sort fuel m (some q) = .ok (m1, some q1) ∧ IsList m1 q1.head l1 ∧
      l1.map (value_at m1) = l.map (value_at m) := by
  obtain ⟨m1, q1, hrun, hchain, _, _, hsame, _⟩ := q_sort_spec m q l fuel hl hfuel
  refine ⟨m1, q1, _, hrun, hchain, ?_⟩
  rw [value_at_sameNodes m m1 hsame]
  exact sort_spec_sorted_values (value_at m) l hstr hsorted

/-- C16: on a queue whose chain is a finite list of nodes holding C strings, with fuel
for the loops and the recursion: when the values read from `head` are already in ascending
order, `q_sort` returns and the values read from the new `head` are the same sequence;
in particular a second `q_sort` after a first one leaves the sequence of values as the
first one produced it. -/
theorem q_sort_idempotent (m : Heap) (q : queue_t) (l : List Nat) (fuel : Nat)
    (hl : IsList m q.head l) (hstr : ∀ x ∈ l, is_cstring (value_at m x))
    (hfuel : l.length + 1 < fuel) :
    (List.Chain' str_le (l.map (value_at m)) →
      ∃ m1 q1 l1, q_sort fuel m (some q) = .ok (m1, some q1) ∧ IsList m1 q1.head l1 ∧
        l1.map (value_at m1) = l.map (value_at m)) ∧
    ∃ m1 q1 l1 m2 q2 l2, q_sort fuel m (some q) = .ok (m1, some q1) ∧
      IsList m1 q1.head l1 ∧ q_sort fuel m1 (some q1) = .ok (m2, some q2) ∧
      IsList m2 q2.head l2 ∧ l2.map (value_at m2) = l1.map (value_at m1) := by
  refine ⟨q_sort_keeps_sorted m q l fuel hl hstr hfuel, ?_⟩
  obtain ⟨m1, q1, hrun, hchain, _, _, hsame, _⟩ := q_sort_spec m q l fuel hl hfuel
  have hperm := sort_spec_perm (value_at m) l
  have hv := value_at_sameNodes m m1 hsame
  have hstr1 : ∀ x ∈ sort_spec (value_at m) l, is_cstring (value_at m1 x) := by
    intro x hx
    rw [hv]
    exact hstr x (hperm.mem_iff.mp hx)
  have hsorted1 : List.Chain' str_le ((sort_spec (value_at m) l).map (value_at m1)) := by
    rw [List.chain'_map, hv]
    exact sort_spec_sorted (value_at m) l
  obtain ⟨m2, q2, l2, hrun2, hchain2, hvals⟩ :=
    q_sort_keeps_sorted m1 q1 _ fuel hchain hstr1 (by rw [hperm.length_eq]; exact hfuel)
      hsorted1
  exact ⟨m1, q1, _, m2, q2, l2, hrun, hchain, hrun2, hchain2, hvals⟩

/-- C16 at an example: the queue of "apple", "apple", "banana", which is sorted. -/
theorem q_sort_idempotent_witness :
    IsList heap_twins queue_twins.head [1, 2, 3] ∧
    (∀ x ∈ ([1, 2, 3] : List Nat), is_cstring (value_at heap_twins x)) ∧
    ([1, 2, 3] : List Nat).length + 1 < 5 ∧
    List.Chain' str_le (([1, 2, 3] : List Nat).map (value_at heap_twins)) ∧
    (List.Chain' str_le (([1, 2, 3] : List Nat).map (value_at heap_twins)) →
      ∃ m1 q1 l1, q_sort 5 heap_twins (some queue_twins) = .ok (m1, some q1) ∧
        IsList m1 q1.head l1 ∧
        l1.map (value_at m1) = ([1, 2, 3] : List Nat).map (value_at heap_twins)) ∧
    ∃ m1 q1 l1 m2 q2 l2, q_sort 5 heap_twins (some queue_twins) = .ok (m1, some q1) ∧
      IsList m1 q1.head l1 ∧ q_sort 5 m1 (some q1) = .ok (m2, some q2) ∧
      IsList m2 q2.head l2 ∧ l2.map (value_at m2) = l1.map (value_at m1) :=
  have h12 : str_le (value_at heap_twins 1) (value_at heap_twins 2) := by decide
  have h23 : str_le (value_at heap_twins 2) (value_at heap_twins 3) := by decide
  ⟨by decide, by decide, by decide, List.Chain.cons h12 (List.Chain.cons h23 List.Chain.nil),
    q_sort_idempotent heap_twins queue_twins [1, 2, 3] 5 (by decide) (by decide) (by decide)⟩

/-! ## The order of equal values after sorting -/

theorem merge_spec_sublist_left (v : Nat → List Nat) (l1 : List Nat) : ∀ l2 : List Nat,
    List.Sublist l1 (merge_spec v l1 l2) := by
  induction l1 with
  | nil =>
    intro l2
    exact List.nil_sublist _
  | cons a l1 ih1 =>
    intro l2
    induction l2 with
    | nil =>
      rw [merge_spec_nil_right]
    | cons b l2 ih2 =>
      rw [merge_spec_cons]
      by_cases hcmp : strcmp (v a) (v b) < 0
      · rw [if_pos hcmp]
        exact List.cons_sublist_cons.mpr (ih1 (b :: l2))
      · rw [if_neg hcmp]
        exact List.Sublist.cons b ih2

theorem merge_spec_sublist_right (v : Nat → List Nat) (l1 : List Nat) : ∀ l2 : List Nat,
    List.Sublist l2 (merge_spec v l1 l2) := by
  induction l1 with
  | nil =>
    intro l2
    rw [merge_spec_nil_left]
  | cons a l1 ih1 =>
    intro l2
    induction l2 with
    | nil => exact List.nil_sublist _
    | cons b l2 ih2 =>
      rw [merge_spec_cons]
      by_cases hcmp : strcmp (v a) (v b) < 0
      · rw [if_pos hcmp]
        exact List.Sublist.cons a (ih1 (b :: l2))
      · rw [if_neg hcmp]
        exact List.cons_sublist_cons.mpr ih2

theorem merge_spec_tie (v : Nat → List Nat) (l1 : List Nat) : ∀ (l2 : List Nat) (a b : Nat),
    List.Pairwise (fun x y => str_le (v x) (v y)) l2 → a ∈ l1 → b ∈ l2 → v a = v b →
    List.Sublist [b, a] (merge_spec v l1 l2) := by
  induction l1 with
  | nil =>
    intro l2 a b _ ha
    simp at ha
  | cons x l1 ih1 =>
    intro l2
    induction l2 with
    | nil =>
      intro a b _ _ hb
      simp at hb
    | cons y l2 ih2 =>
      intro a b hsorted ha hb hv
      rw [merge_spec_cons]
      have hs := List.pairwise_cons.mp hsorted
      by_cases hcmp : strcmp (v x) (v y) < 0
      · rw [if_pos hcmp]
        rcases List.mem_cons.mp ha with hax | hmem
        · exfalso
          have hyb : strcmp (v y) (v b) ≤ 0 := by
            rcases List.mem_cons.mp hb with hby | hmemb
            · rw [hby, strcmp_self]
            · exact hs.1 b hmemb
          rw [← hv, hax] at hyb
          have := strcmp_neg_swap _ _ hcmp
          omega
        · exact List.Sublist.cons x (ih1 (y :: l2) a b hsorted hmem hb hv)
      · rw [if_neg hcmp]
        rcases List.mem_cons.mp hb with hby | hmemb
        · rw [hby]
          refine List.cons_sublist_cons.mpr (List.singleton_sublist.mpr ?_)
          exact (merge_spec_perm v (x :: l1) l2).mem_iff.mpr (List.mem_append_left _ ha)
        · exact List.Sublist.cons y (ih2 a b hs.2 ha hmemb hv)

theorem sort_fuel_pairwise (v : Nat → List Nat) (f : Nat) (l : List Nat) (hlen : l.length ≤ f)
    (hstr : ∀ x ∈ l, is_cstring (v x)) :
    List.Pairwise (fun x y => str_le (v x) (v y)) (sort_fuel v f l) := by
  have hchain : List.Chain' str_le ((sort_fuel v f l).map v) := by
    rw [List.chain'_map]
    exact sort_fuel_sorted v f l hlen
  have hstr1 : ∀ s ∈ (sort_fuel v f l).map v, is_cstring s := by
    intro s hs
    obtain ⟨x, hx, rfl⟩ := List.mem_map.mp hs
    exact hstr x ((sort_fuel_perm v f l).mem_iff.mp hx)
  have hp := chain_cstr_le _ hchain hstr1
  rw [List.pairwise_map] at hp
  exact hp.imp (fun h => h.1)

theorem sort_fuel_ties (v : Nat → List Nat) (f : Nat) : ∀ l : List Nat, l.length ≤ f →
    (∀ x ∈ l, is_cstring (v x)) → ∀ a b, List.Sublist [a, b] l → v a = v b →
    List.Sublist [b, a] (sort_fuel v f l) := by
  induction f with
  | zero =>
    intro l hlen _ a b hsub _
    have := hsub.length_le
    simp at this
    omega
  | succ f ih =>
    intro l hlen hstr a b hsub hv
    by_cases hshort : l.length < 2
    · have := hsub.length_le
      simp at this
      omega
    · rw [sort_fuel_succ v f l hshort]
      have hT : (l.take ((l.length + 1) / 2)).length ≤ f := by
        rw [List.length_take]
        omega
      have hD : (l.drop ((l.length + 1) / 2)).length ≤ f := by
        rw [List.length_drop]
        omega
      have hstrT : ∀ x ∈ l.take ((l.length + 1) / 2), is_cstring (v x) :=
        fun x hx => hstr x (List.mem_of_mem_take hx)
      have hstrD : ∀ x ∈ l.drop ((l.length + 1) / 2), is_cstring (v x) :=
        fun x hx => hstr x (List.mem_of_mem_drop hx)
      have hsub1 : List.Sublist [a, b]
          (l.take ((l.length + 1) / 2) ++ l.drop ((l.length + 1) / 2)) := by
        rw [List.take_append_drop]
        exact hsub
      obtain ⟨p1, p2, hsplit, hp1, hp2⟩ := List.sublist_append_iff.mp hsub1
      match p1, hsplit, hp1 with
      | [], hsplit, _ =>
        have hp2eq : p2 = [a, b] := by simpa using hsplit.symm
        rw [hp2eq] at hp2
        exact (ih _ hD hstrD a b hp2 hv).trans (merge_spec_sublist_right v _ _)
      | [x], hsplit, hp1 =>
        have hx : a = x ∧ [b] = p2 := by simpa using hsplit
        rw [← hx.1] at hp1
        rw [← hx.2] at hp2
        have haT := (sort_fuel_perm v f _).mem_iff.mpr (List.singleton_sublist.mp hp1)
        have hbD := (sort_fuel_perm v f _).mem_iff.mpr (List.singleton_sublist.mp hp2)
        exact merge_spec_tie v _ _ a b (sort_fuel_pairwise v f _ hD hstrD) haT hbD hv
      | x :: y :: rest, hsplit, hp1 =>
        have hx : a = x ∧ b = y ∧ rest = [] ∧ p2 = [] := by
          simp only [List.cons_append, List.cons.injEq] at hsplit
          obtain ⟨h1, h2, h3⟩ := hsplit
          have h4 := List.append_eq_nil.mp h3.symm
          exact ⟨h1, h2, h4.1, h4.2⟩
        rw [← hx.1, ← hx.2.1, hx.2.2.1] at hp1
        exact (ih _ hT hstrT a b hp1 hv).trans (merge_spec_sublist_left v _ _)

theorem nodup_pair_order (l : List Nat) (hnd : l.Nodup) (a b : Nat)
    (h1 : List.Sublist [b, a] l) (h2 : List.Sublist [a, b] l) : False := by
  induction l with
  | nil =>
    have := h1.length_le
    simp at this
  | cons x l ih =>
    have hx := List.nodup_cons.mp hnd
    have ha : a ∈ x :: l := h1.subset (by simp)
    have hb : b ∈ x :: l := h1.subset (by simp)
    cases h1 with
    | cons _ h1 =>
      cases h2 with
      | cons _ h2 => exact ih hx.2 h1 h2
      | cons₂ _ h2 =>
        exact hx.1 (h1.subset (by simp))
    | cons₂ _ h1 =>
      cases h2 with
      | cons _ h2 => exact hx.1 (h2.subset (by simp))
      | cons₂ _ h2 =>
        exact hx.1 (List.singleton_sublist.mp h1)

/-- C20: on a queue whose chain is a finite list `l` of nodes holding C strings, with
fuel for the loops and the recursion, `q_sort` returns, and any two nodes `a`, `b` of
the chain with `a` before `b` whose values compare equal are distinct and appear in the
new chain with `b` before `a`, and not with `a` before `b`. -/
theorem q_sort_reverses_ties (m : Heap) (q : queue_t) (l : List Nat) (fuel : Nat)
    (hl : IsList m q.head l) (hstr : ∀ x ∈ l, is_cstring (value_at m x))
    (hfuel : l.length + 1 < fuel) :
    ∃ m1 q1 l1, q_sort fuel m (some q) = .ok (m1, some q1) ∧ IsList m1 q1.head l1 ∧
      ∀ a b, List.Sublist [a, b] l → strcmp (value_at m a) (value_at m b) = 0 →
        a ≠ b ∧ List.Sublist [b, a] l1 ∧ ¬ List.Sublist [a, b] l1 := by
  obtain ⟨m1, q1, hrun, hchain, _, _, _, _⟩ := q_sort_spec m q l fuel hl hfuel
  refine ⟨m1, q1, _, hrun, hchain, ?_⟩
  intro a b hsub htie
  have hnd := isList_nodup m l _ hl
  have hnd1 := isList_nodup m1 _ _ hchain
  have ha : a ∈ l := hsub.subset (by simp)
  have hb : b ∈ l := hsub.subset (by simp)
  have hv : value_at m a = value_at m b :=
    strcmp_eq_zero _ _ (hstr a ha) (hstr b hb) htie
  have hne : a ≠ b := by
    have := List.Nodup.sublist hsub hnd
    simp at this
    exact this
  have hrev : List.Sublist [b, a] (sort_spec (value_at m) l) :=
    sort_fuel_ties (value_at m) l.length l (le_refl _) hstr a b hsub hv
  exact ⟨hne, hrev, fun h => nodup_pair_order _ hnd1 a b hrev h⟩

/-- C20 at an example: the queue of "apple", "apple", "banana". -/
theorem q_sort_reverses_ties_witness :
    IsList heap_twins queue_twins.head [1, 2, 3] ∧
    (∀ x ∈ ([1, 2, 3] : List Nat), is_cstring (value_at heap_twins x)) ∧
    ([1, 2, 3] : List Nat).length + 1 < 5 ∧
    ∃ m1 q1 l1, q_sort 5 heap_twins (some queue_twins) = .ok (m1, some q1) ∧
      IsList m1 q1.head l1 ∧
      ∀ a b, List.Sublist [a, b] [1, 2, 3] →
        strcmp (value_at heap_twins a) (value_at heap_twins b) = 0 →
        a ≠ b ∧ List.Sublist [b, a] l1 ∧ ¬ List.Sublist [a, b] l1 :=
  ⟨by decide, by decide, by decide,
    q_sort_reverses_ties heap_twins queue_twins [1, 2, 3] 5 (by decide) (by decide)
      (by decide)⟩

/-- The queue of "apple", "apple", "banana" after `q_sort`: the two nodes holding
"apple" have exchanged their places. -/
theorem scenario_twins :
    ∃ m1 q1, q_sort 5 heap_twins (some queue_twins) = .ok (m1, some q1) ∧
      IsList m1 q1.head [2, 1, 3] ∧ q1.tail = some 3 :=
  ⟨_, _, rfl, by decide, rfl⟩

end Lab0
